import Mathlib

/-!
Verification development for the Pangkah room game engine
(`src/server.js`, primary variant lines 1-1649; Fate-rule variant in
`src/unnamed/part_000` lines 144-1400).

The JavaScript engine is shallowly embedded: each socket handler or helper
function becomes a pure Lean function on an explicit `Room` state.  Fields
that only feed the statistics collaborator (`gameStats`, `pangkahDealer`,
XP bookkeeping) are elided because they never influence the control flow
of the game-state transitions modelled here; broadcasts (`io.emit`) are
likewise external effects with no bearing on the room state.
-/

namespace Pangkah

/-- The four suits, listed in the order `['Spades','Hearts','Diamonds','Clubs']`
used by `createDeck` and by every `Object.entries(bySuit)` iteration. -/
inductive Suit : Type
  | Spades | Hearts | Diamonds | Clubs
deriving DecidableEq, Repr

/-- The fixed iteration order of suits in the source. -/
def suitsList : List Suit := [.Spades, .Hearts, .Diamonds, .Clubs]

/-- A card.  `rank` is the index into `['A','2',...,'10','J','Q','K']`
(so `A = 0`, `K = 12`); `val` is the ordinal strength stored on the card
(`val = rank index` in the primary variant's `createDeck`, `A = 14` in the
penalty-variant `generateDeck`).  Kept as separate fields exactly as in the
JS card objects `{suit, rank, val}`. -/
structure Card : Type where
  suit : Suit
  rank : Nat
  val : Nat
deriving DecidableEq, Repr

/-- `c.suit==='Spades' && c.rank==='K'` — the King of Spades test. -/
def isKS (c : Card) : Bool := c.suit == Suit.Spades && c.rank == 12

/-- `card.rank === 'A'` — the Ace test used by the Fate Rule. -/
def isAce (c : Card) : Bool := c.rank == 0

/-- Placeholder used for `getD`; every access through it is index-guarded. -/
def dummyCard : Card := ⟨Suit.Spades, 0, 0⟩

/-- A seated player: socket `id`, stable `userID`, display `name`, `hand`,
`isBot` flag (stat fields elided). -/
structure Player : Type where
  id : String
  userID : String
  name : String
  hand : List Card
  isBot : Bool
deriving DecidableEq, Repr

def dummyPlayer : Player := ⟨"", "", "", [], false⟩

/-- One entry of `room.table`: `{ card, playerIdx, playerName }`. -/
structure TableEntry : Type where
  card : Card
  playerIdx : Nat
  playerName : String
deriving DecidableEq, Repr

/-- The per-room mutable state (the fields read or written by the engine's
game logic).  `turn` is an `Int` because `Array.prototype.findIndex`
returns `-1` when no hand holds the King of Spades. -/
structure Room : Type where
  players : List Player
  turn : Int
  table : List TableEntry
  currentSuit : Option Suit
  isFirstMove : Bool
  discarded : List Card
  fateAces : List Card
  gameStarted : Bool
  resolving : Bool
  finishOrder : List String
deriving DecidableEq, Repr

/-- The per-room AI memory object held in the global `roomAIMemory` map.
`knownVoidSuits` (a JS `Map` from seat index to a `Set` of suits) is
modelled as an association list. -/
structure AIMemory : Type where
  discardedCards : List Card
  knownVoidSuits : List (Nat × List Suit)
  cardsPlayedThisGame : List Card
  roundsPlayed : Nat
deriving DecidableEq, Repr

/-- `resetAIMemory(roomID)` stores this fresh object for the room. -/
def resetAIMemory : AIMemory :=
  { discardedCards := [], knownVoidSuits := [], cardsPlayedThisGame := [], roundsPlayed := 0 }

/-- Suits recorded as void for a seat (empty when the seat has no entry),
mirroring `mem.knownVoidSuits.get(playerIdx)`. -/
def memVoids (mem : AIMemory) (playerIdx : Nat) : List Suit :=
  match mem.knownVoidSuits.find? (fun e => e.1 == playerIdx) with
  | some e => e.2
  | none => []

/-- JS `Array.prototype.findIndex`: first index satisfying `p`, `-1` if none. -/
def jsFindIndex (p : α → Bool) : List α → Int
  | [] => -1
  | x :: xs =>
      if p x then 0
      else
        let r := jsFindIndex p xs
        if r = -1 then -1 else r + 1

/-- `createDeck()` of the primary variant: suits × ranks in order, with
`val` equal to the rank index (Ace low at 0, King high at 12). -/
def createDeck : List Card :=
  suitsList.flatMap fun s => (List.range 13).map fun r => ⟨s, r, r⟩

/-- `generateDeck()` of the Fate-rule variant (`src/unnamed/part_000`):
ranks `2..10,J,Q,K,A` with values `2..14` (Ace high), suits in order.
Rank codes keep the shared convention `A = 0`, `2 = 1`, …, `K = 12`. -/
def generateDeckPenalty : List Card :=
  suitsList.flatMap fun s =>
    ((List.range 12).map fun r => (⟨s, r + 1, r + 2⟩ : Card)) ++ [⟨s, 0, 14⟩]

/-- Indices `i < len` with `i % n = j`: the deck positions that the
round-robin `deck.forEach((c,i) => players[i % n].hand.push(c))` sends to
seat `j`. -/
def idxList (n j len : Nat) : List Nat :=
  (List.range len).filter (fun i => i % n == j)

/-- The hand seat `j` receives from `deck` under the round-robin deal. -/
def handOf (n : Nat) (deck : List Card) (j : Nat) : List Card :=
  (idxList n j deck.length).map (fun i => deck.getD i dummyCard)

/-- `deck.forEach((c,i) => room.players[i % n].hand.push(c))` after
`p.hand = []`: every seat's hand is replaced by its round-robin share. -/
def dealCards (sp : List Player) (deck : List Card) : List Player :=
  (List.range sp.length).map fun j =>
    { sp.getD j dummyPlayer with hand := handOf sp.length deck j }

/-- The card-distribution phase of `deal(room)` (`server.js` 1010-1019):
the seat order `sp` and deck order `deck` stand for the outputs of the two
`shuffle` calls (the randomness parameter); hands are dealt round-robin,
`turn` is set by `findIndex` on the King of Spades (so `-1` when absent)
and `isFirstMove` is set.  The room's AI memory `mem` is untouched by this
phase and carried through unchanged. -/
def dealPhase (room : Room) (mem : AIMemory) (sp : List Player) (deck : List Card) :
    Room × AIMemory :=
  let players' := dealCards sp deck
  ({ room with
      players := players'
      turn := jsFindIndex (fun p => p.hand.any isKS) players'
      isFirstMove := true }, mem)

/-- The whole of `deal(room)` (`server.js` 1010-1023): the dealing phase
followed by `resetAIMemory(room.id)` — the reset is the **last** statement
of `deal`, i.e. it runs after the cards have been pushed into the hands. -/
def deal (room : Room) (mem : AIMemory) (sp : List Player) (deck : List Card) :
    Room × AIMemory :=
  ((dealPhase room mem sp deck).1, resetAIMemory)

/-- The reset block shared by `socket.on('startGame')` (1532-1534) and the
rematch auto-start (1628-1635): bumps nothing we track except clearing
`finishOrder`, `fateAces`, `discarded` and setting `gameStarted`, then
calls `deal`.  (`room.table`, `room.currentSuit` and `room.resolving` are
NOT reset by either path.) -/
def startGameCore (room : Room) (mem : AIMemory) (sp : List Player) (deck : List Card) :
    Room × AIMemory :=
  deal { room with gameStarted := true, finishOrder := [], fateAces := [], discarded := [] }
    mem sp deck

/-- `FATE_CONFIG` (`src/unnamed/part_000` 178-185): aces to discard per
player count; `undefined` (here `none`) for unconfigured counts. -/
def FATE_CONFIG (n : Nat) : Option Nat :=
  if n = 4 then some 0
  else if n = 5 then some 2
  else if n = 6 then some 4
  else if n = 7 then some 3
  else if n = 8 then some 4
  else if n = 10 then some 2
  else none

/-- The positions of Aces in a deck, as collected by
`deck.forEach((card, idx) => { if (card.rank === 'A') aceIndices.push(idx); })`. -/
def aceIndices (deck : List Card) : List Nat :=
  (List.range deck.length).filter (fun i => isAce (deck.getD i dummyCard))

/-- The cards the Fate Rule removes, given the post-shuffle selection
`sel` of positions (`shuffle(aceIndices)` then `slice(0, discardCount)`);
`startGameForRoom` splices exactly the cards at those positions out of the
deck into `room.fateAces`. -/
def fateRemoved (deck : List Card) (sel : List Nat) : List Card :=
  sel.map (fun i => deck.getD i dummyCard)

/-- The seat-count in `processCard`'s round-completion test
(`server.js` 1096): seats with a non-empty hand, or that already played
into the current trick (`room.players.indexOf(x)` is the seat's position,
since seated player objects are distinct). -/
def countActive (players : List Player) (table : List TableEntry) : Nat :=
  ((List.range players.length).filter fun i =>
    !(players.getD i dummyPlayer).hand.isEmpty || table.any (fun t => t.playerIdx == i)).length

/-- The `while` loop of `advancePlayer` (`server.js` 1103-1104): advance
from `next`, skipping empty hands, for at most `players.length` attempts. -/
def nextActiveAux (players : List Player) : Nat → Nat → Nat
  | next, 0 => next
  | next, fuel + 1 =>
      if (players.getD next dummyPlayer).hand.isEmpty then
        nextActiveAux players ((next + 1) % players.length) fuel
      else next

/-- `advancePlayer` (`server.js` 1101-1108): move `turn` to the next seat
with a non-empty hand (timer/bot side effects are external). -/
def advancePlayer (room : Room) : Room :=
  let n := room.players.length
  let start := (room.turn + 1).toNat % n
  { room with turn := (nextActiveAux room.players start n : Nat) }

/-- `processCard(rid, idx, card)` (`server.js` 1078-1099), the single
commit path used by manual plays, timer auto-play and bots.  It performs
no legality validation: it only looks the card up by suit and rank, and
returns the room unchanged when the player or card is missing (the JS
early returns).  The second component is `some isPangkah` when a round
resolution was scheduled (with that flag), `none` when the turn advanced. -/
def processCard (room : Room) (idx : Nat) (card : Card) : Room × Option Bool :=
  match room.players.get? idx with
  | none => (room, none)
  | some p =>
    let ci := jsFindIndex (fun c => c.suit == card.suit && c.rank == card.rank) p.hand
    if ci = -1 then (room, none)
    else
      let played := p.hand.getD ci.toNat dummyCard
      let hand' := p.hand.eraseIdx ci.toNat
      let players' := room.players.set idx { p with hand := hand' }
      let currentSuit' := if room.table.isEmpty then some played.suit else room.currentSuit
      let table' := room.table ++ [⟨played, idx, p.name⟩]
      let isPangkah := some played.suit ≠ currentSuit'
      let finishOrder' :=
        if hand'.isEmpty && !(room.finishOrder.contains p.userID) then
          room.finishOrder ++ [p.userID]
        else room.finishOrder
      let complete := table'.length ≥ countActive players' table'
      let room' := { room with
        players := players', table := table', currentSuit := currentSuit',
        isFirstMove := false, finishOrder := finishOrder' }
      if isPangkah || complete then ({ room' with resolving := true }, some isPangkah)
      else (advancePlayer room', none)

/-- The winner scan of `resolveRound` (`server.js` 1112-1113): fold over
the table keeping `(high, winIdx)`, both initialised to `-1`, updating on
a strictly higher `val` of the lead suit. -/
def winScan (lead : Option Suit) (acc : Int × Int) : List TableEntry → Int × Int
  | [] => acc
  | t :: ts =>
      winScan lead
        (if some t.card.suit = lead ∧ (t.card.val : Int) > acc.1 then
          ((t.card.val : Int), (t.playerIdx : Int))
        else acc) ts

/-- The winning seat selected by `resolveRound`: the scan result, falling
back to `table[0].playerIdx` when no card matched the lead suit
(`if (winIdx === -1) winIdx = room.table[0].playerIdx`). -/
def resolvedWinnerIdx (table : List TableEntry) (lead : Option Suit) : Nat :=
  let w := (winScan lead (-1, -1) table).2
  if w = -1 then (table.headD ⟨dummyCard, 0, ""⟩).playerIdx else w.toNat

/-- The elimination sweep of `resolveRound` (`server.js` 1133): append, in
seat order, every player whose hand is empty and who is not yet listed. -/
def sweepFinish (players : List Player) (fo : List String) : List String :=
  players.foldl
    (fun acc p => if p.hand.isEmpty && !(acc.contains p.userID) then acc ++ [p.userID] else acc)
    fo

/-- `resolveRound(rid, isPangkah)` (`server.js` 1110-1157).  Winner as in
`resolvedWinnerIdx`; on pangkah the winner's hand absorbs all table cards,
on a clean round they go to the discard pile; then the elimination sweep;
then either game over (`survivors.length <= 1`: unguarded loser push,
`gameStarted = false`, with `table`/`currentSuit`/`resolving` left as they
are) or the next trick (`table = []`, `currentSuit = null`,
`turn = winIdx`, `resolving = false`).  The guards returning `room`
unchanged correspond to JS states that would throw (empty table / invalid
winner index), both unreachable from the engine's call sites. -/
def resolveRound (room : Room) (isPangkah : Bool) : Room :=
  match room.table with
  | [] => room
  | _ :: _ =>
    let winIdx := resolvedWinnerIdx room.table room.currentSuit
    match room.players.get? winIdx with
    | none => room
    | some winner =>
      let tableCards := room.table.map (·.card)
      let players' :=
        if isPangkah then
          room.players.set winIdx { winner with hand := winner.hand ++ tableCards }
        else room.players
      let discarded' := if isPangkah then room.discarded else room.discarded ++ tableCards
      let finishOrder' := sweepFinish players' room.finishOrder
      let survivors := players'.filter (fun p => !p.hand.isEmpty)
      if survivors.length ≤ 1 then
        { room with
            players := players', discarded := discarded', gameStarted := false,
            finishOrder := finishOrder' ++
              (match survivors.head? with | some l => [l.userID] | none => []) }
      else
        { room with
            players := players', discarded := discarded', finishOrder := finishOrder',
            table := [], currentSuit := none, turn := (winIdx : Int), resolving := false }

/-- The `survivors` list `resolveRound` computes after the card movement
(`room.players.filter(p => p.hand.length > 0)` over the post-absorption
players): the game-over test is `survivors.length <= 1`. -/
def survivorsAfter (room : Room) (isPangkah : Bool) : List Player :=
  match room.table with
  | [] => room.players.filter (fun p => !p.hand.isEmpty)
  | _ :: _ =>
    let winIdx := resolvedWinnerIdx room.table room.currentSuit
    match room.players.get? winIdx with
    | none => room.players.filter (fun p => !p.hand.isEmpty)
    | some winner =>
      let players' :=
        if isPangkah then
          room.players.set winIdx
            { winner with hand := winner.hand ++ room.table.map (·.card) }
        else room.players
      players'.filter (fun p => !p.hand.isEmpty)

/-- `updateAIMemory(roomID, room, isPangkah)` (`server.js` 1213-1235),
called by `resolveRound` before the table is cleared. -/
def updateAIMemory (mem : AIMemory) (room : Room) (isPangkah : Bool) : AIMemory :=
  let mem1 := { mem with
    roundsPlayed := mem.roundsPlayed + 1
    cardsPlayedThisGame := mem.cardsPlayedThisGame ++ room.table.map (·.card) }
  match room.currentSuit with
  | some s =>
    if isPangkah then
      let kv' :=
        room.table.foldl
          (fun kv t =>
            if t.card.suit == s then kv
            else
              let i := jsFindIndex (fun e => e.1 == t.playerIdx) kv
              if i = -1 then kv ++ [(t.playerIdx, [s])]
              else
                let old := (kv.getD i.toNat (0, [])).2
                kv.set i.toNat
                  (t.playerIdx, if old.contains s then old else old ++ [s]))
          mem1.knownVoidSuits
      { mem1 with knownVoidSuits := kv' }
    else { mem1 with discardedCards := mem1.discardedCards ++ room.table.map (·.card) }
  | none =>
      if isPangkah then mem1
      else { mem1 with discardedCards := mem1.discardedCards ++ room.table.map (·.card) }

/-- The fallback card chosen by the turn-timer expiry handler
(`server.js` 1065-1066): the King of Spades on the first move, else
`hand.find` of the lead suit — the **first** matching card in hand order —
else `hand[0]`, the first card of the hand. -/
def autoPlayCard (room : Room) (p : Player) : Option Card :=
  let c0 : Option Card :=
    if room.isFirstMove then p.hand.find? isKS
    else
      match room.currentSuit with
      | some s => p.hand.find? (fun c => c.suit == s)
      | none => none
  match c0 with
  | some c => some c
  | none => p.hand.head?

/-- Outcome of the `playCard` socket handler: the room it leaves behind,
the `errorMsg` payload (if any was emitted), and whether the play was
committed. -/
structure PlayResult : Type where
  room : Room
  errorMsg : Option String
  accepted : Bool
deriving DecidableEq, Repr

/-- `socket.on('playCard')` (`server.js` 1540-1550).  Validation order:
resolving (bare `return`, **no** message), wrong turn, card not in hand,
first-move King of Spades, must-follow-suit; a passing submission is
committed through `processCard`.  Every rejection path returns before any
state is touched. -/
def playCard (room : Room) (socketId : String) (card : Card) : PlayResult :=
  if room.resolving then ⟨room, none, false⟩
  else
    match room.players.get? room.turn.toNat with
    | none => ⟨room, none, false⟩
    | some p =>
      if p.id ≠ socketId then ⟨room, some "Not your turn", false⟩
      else
        let ci := jsFindIndex (fun c => c.suit == card.suit && c.rank == card.rank) p.hand
        if ci = -1 then ⟨room, some "Card not found", false⟩
        else
          let c := p.hand.getD ci.toNat dummyCard
          if room.isFirstMove && !(c.suit == Suit.Spades && c.rank == 12) then
            ⟨room, some "Must play K♠", false⟩
          else if room.table.length > 0 && !(some c.suit == room.currentSuit)
              && p.hand.any (fun x => some x.suit == room.currentSuit) then
            ⟨room, some "Must follow suit", false⟩
          else ⟨(processCard room room.turn.toNat card).1, none, true⟩

/-- `socket.on('acceptSwap')` (`server.js` 1588-1604).  After looking up
the two players by `userID` the transfer is unconditional: no check of a
pending request, of the turn, of seat adjacency or of `gameStarted`.  The
two sequential hand mutations are modelled positionally (`find` returns
the first match, which is then mutated in place); when both IDs name the
same player the second write wins, as in JS.  `none` models the silent
`return` when a lookup fails. -/
def acceptSwap (room : Room) (fromUserID myUserID : String) : Option Room :=
  let ri := jsFindIndex (fun p => p.userID == fromUserID) room.players
  let ai := jsFindIndex (fun p => p.userID == myUserID) room.players
  if ri = -1 ∨ ai = -1 then none
  else
    let req := room.players.getD ri.toNat dummyPlayer
    let acc := room.players.getD ai.toNat dummyPlayer
    let players1 := room.players.set ri.toNat { req with hand := req.hand ++ acc.hand }
    let players2 := players1.set ai.toNat { players1.getD ai.toNat dummyPlayer with hand := [] }
    let finishOrder' :=
      if room.finishOrder.contains acc.userID then room.finishOrder
      else room.finishOrder ++ [acc.userID]
    let survivors := players2.filter (fun p => !p.hand.isEmpty)
    if survivors.length ≤ 1 then
      some { room with
        players := players2, gameStarted := false,
        finishOrder := finishOrder' ++
          (match survivors.head? with | some l => [l.userID] | none => []) }
    else
      some { room with players := players2, finishOrder := finishOrder' }

/-- `socket.on('leaveRoom')` (`server.js` 1644): splice the player out of
the seat list (their hand leaves with them); if no human remains the room
is deleted (`none`). -/
def leaveRoom (room : Room) (userID : String) : Option Room :=
  let idx := jsFindIndex (fun p => p.userID == userID) room.players
  if idx = -1 then some room
  else
    let players' := room.players.eraseIdx idx.toNat
    if players'.all (·.isBot) then none
    else some { room with players := players' }

/-- Total number of cards the invariant of §3/§8 counts:
`Σ hand sizes + |table| + |discardPile| + |fateRemovedCards|`. -/
def totalCards (room : Room) : Nat :=
  (room.players.map (·.hand.length)).sum + room.table.length
    + room.discarded.length + room.fateAces.length

/-- The game-rule legality of playing `c` from `hand` in `room`, exactly
the checks 4-5 of the `playCard` handler (first-move King of Spades and
must-follow-suit; check 3 is membership). -/
def legalPlay (room : Room) (hand : List Card) (c : Card) : Bool :=
  hand.contains c
    && (!room.isFirstMove || isKS c)
    && (!(room.table.length > 0) || (some c.suit == room.currentSuit)
        || !(hand.any (fun x => some x.suit == room.currentSuit)))

/-! ### Bot decision engine (`server.js` 1237-1446) -/

/-- Stable insertion (ascending by `val`) for the JS stable
`sort((a,b) => a.val - b.val)`. -/
def insertByVal (c : Card) : List Card → List Card
  | [] => [c]
  | x :: xs => if c.val ≤ x.val then c :: x :: xs else x :: insertByVal c xs

/-- Stable ascending sort by `val`. -/
def sortByVal : List Card → List Card
  | [] => []
  | x :: xs => insertByVal x (sortByVal xs)

/-- Stable insertion (descending by `val`) for `sort((a,b) => b.val - a.val)`. -/
def insertByValDesc (c : Card) : List Card → List Card
  | [] => [c]
  | x :: xs => if c.val ≥ x.val then c :: x :: xs else x :: insertByValDesc c xs

/-- Stable descending sort by `val`. -/
def sortByValDesc : List Card → List Card
  | [] => []
  | x :: xs => insertByValDesc x (sortByValDesc xs)

/-- The per-suit grouping `bySuit` built at the top of `botDecide`:
cards of the suit in hand order, sorted ascending by `val`. -/
def bySuitOf (hand : List Card) (s : Suit) : List Card :=
  sortByVal (hand.filter (fun c => c.suit == s))

/-- Game phase (`getGamePhase`, `server.js` 1237-1243).  The JS compares
`total/52` (a float) against `0.70` and `0.35`; since no multiple of
`1/52` lies close enough to either constant for double rounding to
matter, the exact rational comparison below is equivalent. -/
inductive Phase : Type
  | early | mid | late
deriving DecidableEq, Repr

def getGamePhase (room : Room) : Phase :=
  let total := (room.players.map (·.hand.length)).sum
  if 100 * total > 70 * 52 then .early
  else if 100 * total > 35 * 52 then .mid
  else .late

/-- `isPlayerVoid(mem, playerIdx, suit)` (`server.js` 1245-1248). -/
def isPlayerVoid (mem : AIMemory) (playerIdx : Nat) (s : Suit) : Bool :=
  (memVoids mem playerIdx).contains s

/-- The `while` loop of `getPlayersAfterBot` (`server.js` 1250-1260),
fuelled by the seat count: collect seats after the bot (cyclically, up to
the bot) that still hold cards and have not yet played into the trick. -/
def getPlayersAfterBotAux (room : Room) (botIdx : Nat) : Nat → Nat → List Nat
  | _, 0 => []
  | idx, fuel + 1 =>
      if idx = botIdx then []
      else
        (if !(room.players.getD idx dummyPlayer).hand.isEmpty
            && !(room.table.any (fun t => t.playerIdx == idx)) then [idx] else [])
          ++ getPlayersAfterBotAux room botIdx ((idx + 1) % room.players.length) fuel

def getPlayersAfterBot (room : Room) (botIdx : Nat) : List Nat :=
  getPlayersAfterBotAux room botIdx ((botIdx + 1) % room.players.length) room.players.length

/-- `getTableHigh` (`server.js` 1262-1266): highest `val` of the lead suit
on the table, `-1` when there is no lead suit or no matching card. -/
def getTableHigh (room : Room) : Int :=
  match room.currentSuit with
  | none => -1
  | some s =>
      room.table.foldl (fun m t => if t.card.suit == s then max m (t.card.val : Int) else m) (-1)

/-- `getHighestInPlayBySuit` (`server.js` 1268-1279): start every suit at
12 and decrement whenever the discard log (then the bot's own hand) holds
the current highest. -/
def getHighestInPlayBySuit (mem : AIMemory) (botHand : List Card) : Suit → Int :=
  (mem.discardedCards ++ botHand).foldl
    (fun f c => if (c.val : Int) = f c.suit then (fun s => if s == c.suit then f s - 1 else f s) else f)
    (fun _ => 12)

/-- The singleton-elimination pick shared by the leading-early and
pangkah branches (`server.js` 1307-1313, 1423-1428): among suits holding
exactly one card, `reduce((a,b) => a[1][0].val > b[1][0].val ? a : b)`,
returning that single card. -/
def pickSingleton (entries : List (Suit × List Card)) : Option Card :=
  match entries.filter (fun e => e.2.length == 1) with
  | [] => none
  | e :: es =>
      some ((es.foldl
          (fun a b => if (a.2.headD dummyCard).val > (b.2.headD dummyCard).val then a else b)
          e).2.headD dummyCard)

/-- The most-common-suit pick (`server.js` 1316-1318, 1344-1346,
1435-1437): non-empty suits stably sorted by descending length, first
entry — i.e. the first suit attaining the maximal count. -/
def pickMostCommon (entries : List (Suit × List Card)) : Option (Suit × List Card) :=
  match entries.filter (fun e => 0 < e.2.length) with
  | [] => none
  | e :: es => some (es.foldl (fun a b => if b.2.length > a.2.length then b else a) e)

/-- The late-game "safest suit" scan (`server.js` 1352-1362): the first
non-empty suit maximising `13 - |held| - |discarded of the suit|`. -/
def lateSafest (mem : AIMemory) (hand : List Card) : Option Suit :=
  (suitsList.foldl
    (fun acc s =>
      let cards := bySuitOf hand s
      if cards.isEmpty then acc
      else
        let remaining : Int :=
          13 - (cards.length : Int) - ((mem.discardedCards.filter (fun c => c.suit == s)).length : Int)
        if remaining > acc.2 then (some s, remaining) else acc)
    ((none : Option Suit), (-1 : Int))).1

/-- The leading branch of `botDecide` (`server.js` 1300-1371), with the
JS fall-through to the final `hand.sort((a,b)=>a.val-b.val)[0]`. -/
def botLead (mem : AIMemory) (hand : List Card) (playersAfter : List Nat) (phase : Phase) :
    Option Card :=
  let entries := suitsList.map (fun s => (s, bySuitOf hand s))
  let highInPlay := getHighestInPlayBySuit mem hand
  match phase with
  | .early =>
      (match pickSingleton entries with
       | some c => some c
       | none =>
          match pickMostCommon entries with
          | some e => e.2.getLast?
          | none => (sortByVal hand).head?)
  | .mid =>
      (match suitsList.find? (fun s =>
          let cards := bySuitOf hand s
          !cards.isEmpty
            && !((playersAfter.filter (fun i => isPlayerVoid mem i s)).isEmpty)
            && (((cards.getLastD dummyCard).val : Int) < highInPlay s)) with
       | some s => (bySuitOf hand s).head?
       | none =>
          match pickMostCommon entries with
          | some e => e.2.head?
          | none => (sortByVal hand).head?)
  | .late =>
      (match lateSafest mem hand with
       | some s => (bySuitOf hand s).head?
       | none => (sortByVal hand).head?)

/-- The fall-through tail of the follow-with-suit block
(`server.js` 1399-1416): last-to-play win, early-game high, play-under,
then `canBeat[0] || suitCards[0]`. -/
def botFollowRest (phase : Phase) (playersAfter : List Nat)
    (canBeat cantBeat suitCards : List Card) : Option Card :=
  if playersAfter.isEmpty && !canBeat.isEmpty then canBeat.head?
  else if phase == .early && !canBeat.isEmpty then canBeat.getLast?
  else if !cantBeat.isEmpty then cantBeat.getLast?
  else match canBeat.head? with
    | some c => some c
    | none => suitCards.head?

/-- The follow-with-suit-in-hand block of `botDecide`
(`server.js` 1379-1417), over the grouped-and-sorted lead-suit cards. -/
def botFollowSuit (phase : Phase) (playersAfter voidAfter : List Nat) (tableHigh : Int)
    (suitCards : List Card) : Option Card :=
  let canBeat := suitCards.filter (fun c => (c.val : Int) > tableHigh)
  let cantBeat := suitCards.filter (fun c => (c.val : Int) ≤ tableHigh)
  if (phase == .mid || phase == .late) && !voidAfter.isEmpty then
    if !cantBeat.isEmpty then cantBeat.getLast?
    else if !canBeat.isEmpty then canBeat.head?
    else botFollowRest phase playersAfter canBeat cantBeat suitCards
  else botFollowRest phase playersAfter canBeat cantBeat suitCards

/-- The forced-pangkah dump block of `botDecide` (`server.js` 1419-1445):
singleton elimination, late-game most-common dump, else highest card. -/
def botPangkahDump (mem : AIMemory) (hand : List Card) (phase : Phase) : Option Card :=
  let entries := suitsList.map (fun s => (s, bySuitOf hand s))
  match pickSingleton entries with
  | some c => some c
  | none =>
      let allSorted := sortByValDesc hand
      if phase == .late then
        match pickMostCommon entries with
        | some e => e.2.getLast?
        | none => allSorted.head?
      else allSorted.head?

/-- The following/pangkah branch of `botDecide` (`server.js` 1373-1445). -/
def botFollow (mem : AIMemory) (room : Room) (hand : List Card) (playersAfter : List Nat)
    (phase : Phase) : Option Card :=
  let suitCards := match room.currentSuit with | some s => bySuitOf hand s | none => []
  if !suitCards.isEmpty then
    let voidAfter := match room.currentSuit with
      | some s => playersAfter.filter (fun i => isPlayerVoid mem i s)
      | none => []
    botFollowSuit phase playersAfter voidAfter (getTableHigh room) suitCards
  else botPangkahDump mem hand phase

/-- `botDecide(room, botIdx)` (`server.js` 1282-1446); the global
`getAIMemory(room.id)` lookup is passed in as `mem`.  `none` models the JS
`undefined` (no card found / seat missing). -/
def botDecide (mem : AIMemory) (room : Room) (botIdx : Nat) : Option Card :=
  match room.players.get? botIdx with
  | none => none
  | some bot =>
      if room.isFirstMove then bot.hand.find? isKS
      else
        let playersAfter := getPlayersAfterBot room botIdx
        let phase := getGamePhase room
        if room.table.isEmpty then botLead mem bot.hand playersAfter phase
        else botFollow mem room bot.hand playersAfter phase

/-! ### Concrete fixtures

Reachable concrete states used by counterexamples and witnesses.  The
`shuffle` outputs are instantiated with the identity permutation (a value
the Fisher-Yates shuffle produces), so the dealt states below are states
the server can actually reach. -/

def mkHuman (u : String) : Player := ⟨u ++ "s", u, u, [], false⟩

def playersABCD : List Player := [mkHuman "A", mkHuman "B", mkHuman "C", mkHuman "D"]

def roomBase : Room :=
  { players := playersABCD, turn := 0, table := [], currentSuit := none, isFirstMove := true,
    discarded := [], fateAces := [], gameStarted := false, resolving := false, finishOrder := [] }

/-- A 4-player game right after `startGame` → `deal` with identity shuffles:
13 cards each, seat 0 holds the King of Spades. -/
def dealtRoom4 : Room := (startGameCore roomBase resetAIMemory playersABCD createDeck).1

/-- Four unchecked `acceptSwap` commands driven from `dealtRoom4`:
A absorbs B, then B absorbs C, then B absorbs A, then B absorbs D —
the last one ends the game and pushes the loser "B" a second time. -/
def swapStep1 : Room := (acceptSwap dealtRoom4 "A" "B").getD dealtRoom4

def swapStep2 : Room := (acceptSwap swapStep1 "B" "C").getD swapStep1

def swapStep3 : Room := (acceptSwap swapStep2 "B" "A").getD swapStep2

def swapStep4 : Room := (acceptSwap swapStep3 "B" "D").getD swapStep3

def players5 : List Player :=
  [mkHuman "A", mkHuman "B", mkHuman "C", mkHuman "D", mkHuman "E"]

def roomBase5 : Room := { roomBase with players := players5 }

/-- A 5-player game dealt from the full 52-card deck (this variant has no
Fate filtering): hand sizes 11,11,10,10,10. -/
def dealtRoom5 : Room := (startGameCore roomBase5 resetAIMemory players5 createDeck).1

/-- Turn-timer fixture: following a Hearts trick while holding 5♥ then K♥. -/
def timerPlayerFix : Player :=
  ⟨"Xs", "X", "X", [⟨Suit.Hearts, 4, 4⟩, ⟨Suit.Hearts, 12, 12⟩], false⟩

def timerRoomFix : Room :=
  { roomBase with
      isFirstMove := false, gameStarted := true,
      currentSuit := some Suit.Hearts, table := [⟨⟨Suit.Hearts, 2, 2⟩, 1, "B"⟩] }

/-- A room in its resolution window (`resolving == true`), as entered by
`processCard` right before the scheduled `resolveRound`. -/
def resolvingRoomFix : Room :=
  { dealtRoom4 with
      resolving := true, isFirstMove := false,
      currentSuit := some Suit.Spades,
      table := [⟨⟨Suit.Spades, 12, 12⟩, 0, "A"⟩] }

/-- A finished pangkah trick recorded into the AI memory: seat 2 played
2♣ under a Hearts lead, so seat 2 is remembered void in Hearts. -/
def pangkahTrickFix : Room :=
  { roomBase with
      gameStarted := true, isFirstMove := false,
      currentSuit := some Suit.Hearts,
      table := [⟨⟨Suit.Hearts, 4, 4⟩, 1, "B"⟩, ⟨⟨Suit.Clubs, 1, 1⟩, 2, "C"⟩] }

def memVoidFix : AIMemory := updateAIMemory resetAIMemory pangkahTrickFix true

/-- The spec §8 example trick: lead Hearts, table
`[(P1,5♥),(P2,2♣ pangkah),(P3,K♥)]`; P3 holds the highest Heart. -/
def specTrickPlayers : List Player :=
  [⟨"P0s", "P0", "P0", [⟨Suit.Diamonds, 3, 3⟩], false⟩,
   ⟨"P1s", "P1", "P1", [⟨Suit.Hearts, 7, 7⟩], false⟩,
   ⟨"P2s", "P2", "P2", [⟨Suit.Diamonds, 5, 5⟩], false⟩,
   ⟨"P3s", "P3", "P3", [⟨Suit.Clubs, 9, 9⟩], false⟩]

def specTrickRoom : Room :=
  { players := specTrickPlayers, turn := 3,
    table := [⟨⟨Suit.Hearts, 4, 4⟩, 1, "P1"⟩, ⟨⟨Suit.Clubs, 1, 1⟩, 2, "P2"⟩,
              ⟨⟨Suit.Hearts, 12, 12⟩, 3, "P3"⟩],
    currentSuit := some Suit.Hearts, isFirstMove := false,
    discarded := [], fateAces := [], gameStarted := true, resolving := true,
    finishOrder := [] }

/-- A room in a state every sanctioned-swap precondition violates: game
not started, mid-resolution flag set, turn on neither player, no pending
request — `acceptSwap` still transfers the hand. -/
def swapAnywayRoomFix : Room :=
  { roomBase with
      gameStarted := false, resolving := true, turn := 2,
      players := [{ mkHuman "A" with hand := [⟨Suit.Clubs, 3, 3⟩] },
                  { mkHuman "B" with hand := [⟨Suit.Hearts, 8, 8⟩, ⟨Suit.Spades, 2, 2⟩] },
                  { mkHuman "C" with hand := [⟨Suit.Diamonds, 6, 6⟩] }] }

/-- A final clean trick about to resolve with every hand already empty, so
the game-over branch of `resolveRound` will fire.  `resolving` is `true`,
as `processCard` set it when the last card hit the table. -/
def gameOverPre : Room :=
  { roomBase with
      turn := 3,
      table := [⟨⟨Suit.Hearts, 4, 4⟩, 0, "A"⟩, ⟨⟨Suit.Hearts, 7, 7⟩, 1, "B"⟩,
                ⟨⟨Suit.Hearts, 2, 2⟩, 2, "C"⟩, ⟨⟨Suit.Hearts, 9, 9⟩, 3, "D"⟩],
      currentSuit := some Suit.Hearts, isFirstMove := false,
      gameStarted := true, resolving := true }

/-- The room after that final trick resolves: the game-over branch clears
`gameStarted` but leaves the trick on the table, the Hearts lead set and
`resolving` `true` — it resets none of them (`server.js` 1135-1150). -/
def gameOverRoom : Room := resolveRound gameOverPre false

/-- The rematch auto-start on that room (identity seat and deck shuffles):
`startGameCore` clears `finishOrder`/`fateAces`/`discarded` and re-deals,
but the previous game's final trick, lead suit and resolving flag all
survive into the new game's first move (`server.js` 1528-1538, 1614-1642
reset neither `table` nor `currentSuit` nor `resolving`). -/
def rematchRoom : Room := (startGameCore gameOverRoom resetAIMemory playersABCD createDeck).1

/-! ### Generic helper lemmas -/

theorem mem_of_headq {α : Type _} {l : List α} {a : α} (h : l.head? = some a) : a ∈ l := by
  cases l with
  | nil => simp at h
  | cons x xs => simp at h; simp [h]

theorem headq_of_ne_nil {α : Type _} {l : List α} (h : l ≠ []) : ∃ x, l.head? = some x := by
  cases l with
  | nil => exact absurd rfl h
  | cons x xs => exact ⟨x, rfl⟩

theorem mem_of_getLastq {α : Type _} {l : List α} {a : α} (h : l.getLast? = some a) : a ∈ l := by
  induction l with
  | nil => simp at h
  | cons x xs ih =>
      cases hxs : xs with
      | nil => subst hxs; simp [List.getLast?] at h; simp [h]
      | cons y ys =>
          subst hxs
          rw [List.getLast?_cons_cons] at h
          exact List.mem_cons_of_mem _ (ih h)

theorem getLastq_of_ne_nil {α : Type _} {l : List α} (h : l ≠ []) : ∃ x, l.getLast? = some x := by
  cases l with
  | nil => exact absurd rfl h
  | cons x xs => exact ⟨_, List.getLast?_eq_getLast _ (by simp)⟩

theorem foldl_choice_mem {α : Type _} (f : α → α → α) (hf : ∀ a b, f a b = a ∨ f a b = b) :
    ∀ (l : List α) (a : α), l.foldl f a ∈ a :: l := by
  intro l
  induction l with
  | nil => intro a; simp
  | cons x xs ih =>
      intro a
      simp only [List.foldl_cons]
      rcases List.mem_cons.mp (ih (f a x)) with h | h
      · rcases hf a x with h2 | h2 <;> rw [h, h2] <;> simp
      · exact List.mem_cons_of_mem _ (List.mem_cons_of_mem _ h)

theorem find?_of_exists {α : Type _} (p : α → Bool) (l : List α) (h : ∃ x ∈ l, p x = true) :
    ∃ a, l.find? p = some a := by
  induction l with
  | nil => simp at h
  | cons x xs ih =>
      by_cases hx : p x = true
      · exact ⟨x, by simp [List.find?, hx]⟩
      · obtain ⟨y, hy, hpy⟩ := h
        rcases List.mem_cons.mp hy with rfl | hy
        · exact absurd hpy hx
        · obtain ⟨a, ha⟩ := ih ⟨y, hy, hpy⟩
          exact ⟨a, by simp [List.find?, Bool.of_not_eq_true hx, ha]⟩

theorem jsFindIndex_ge {α : Type _} (p : α → Bool) (l : List α) : -1 ≤ jsFindIndex p l := by
  induction l with
  | nil => simp [jsFindIndex]
  | cons x xs ih =>
      simp only [jsFindIndex]
      split
      · omega
      · split <;> omega

theorem jsFindIndex_eq_neg_iff {α : Type _} (p : α → Bool) (l : List α) :
    jsFindIndex p l = -1 ↔ ∀ x ∈ l, p x = false := by
  induction l with
  | nil => simp [jsFindIndex]
  | cons x xs ih =>
      simp only [jsFindIndex]
      split
      · constructor
        · intro h; omega
        · intro h
          have := h x (by simp)
          simp_all
      · constructor
        · intro h
          split at h
          · intro y hy
            rcases List.mem_cons.mp hy with rfl | hy
            · simp_all
            · exact (ih.mp (by assumption)) y hy
          · exact absurd h (by have := jsFindIndex_ge p xs; omega)
        · intro h
          have hxs : jsFindIndex p xs = -1 := ih.mpr (fun y hy => h y (List.mem_cons_of_mem _ hy))
          simp [hxs]

theorem jsFindIndex_spec {α : Type _} (p : α → Bool) (l : List α)
    (h : jsFindIndex p l ≠ -1) :
    ∃ i : Nat, jsFindIndex p l = (i : Int) ∧ i < l.length ∧
      ∃ x, l[i]? = some x ∧ p x = true := by
  induction l with
  | nil => simp [jsFindIndex] at h
  | cons x xs ih =>
      simp only [jsFindIndex] at h ⊢
      split
      · exact ⟨0, by simp, by simp, x, by simp, by assumption⟩
      · split
        · simp_all
        · rename_i hpx hr
          obtain ⟨i, hi, hlen, y, hy, hpy⟩ := ih hr
          refine ⟨i + 1, by omega, by simp; omega, y, ?_, hpy⟩
          simpa using hy

theorem jsFindIndex_found {α : Type _} (p : α → Bool) (l : List α)
    (h : ∃ x ∈ l, p x = true) : jsFindIndex p l ≠ -1 := by
  intro hneg
  obtain ⟨x, hx, hpx⟩ := h
  have := (jsFindIndex_eq_neg_iff p l).mp hneg x hx
  simp_all

theorem sum_map_set {α : Type _} (f : α → Nat) :
    ∀ (l : List α) (i : Nat) (a : α), i < l.length →
      ((l.set i a).map f).sum + f (l.getD i a) = (l.map f).sum + f a := by
  intro l
  induction l with
  | nil => intro i a h; simp at h
  | cons x xs ih =>
      intro i a h
      cases i with
      | zero => simp [List.set]; omega
      | succ n =>
          simp only [List.set, List.map_cons, List.sum_cons, List.getD_cons_succ]
          have := ih n a (by simpa using h)
          omega

theorem getD_set_self {α : Type _} (l : List α) (i : Nat) (a d : α) (h : i < l.length) :
    (l.set i a).getD i d = a := by
  simp [List.getD, List.getElem?_set_self, h]

theorem getD_set_ne {α : Type _} (l : List α) (i j : Nat) (a d : α) (h : i ≠ j) :
    (l.set i a).getD j d = l.getD j d := by
  simp [List.getD, List.getElem?_set_ne h]

theorem getD_map_range {α : Type _} (n j : Nat) (f : Nat → α) (d : α) (h : j < n) :
    (((List.range n).map f).getD j d) = f j := by
  simp [List.getD, List.getElem?_map, List.getElem?_range h]

/-! ### C7 — Fate Rule divisibility and Ace-only removal -/

/-- C7: for every player count the Fate Rule is configured for (exactly 4,
5, 6, 7, 8, 10), the remaining deck divides evenly
(`(52 - acesRemoved) % playerCount == 0`), and every card the rule removes
has rank Ace — so the King of Spades is never among the removed cards. -/
theorem fate_rule_divisibility_and_aces (n k : Nat) (hk : FATE_CONFIG n = some k)
    (deck : List Card) (sel : List Nat) (hsel : ∀ i ∈ sel, i ∈ aceIndices deck) :
    (52 - k) % n = 0 ∧
    (∀ m, (FATE_CONFIG m).isSome ↔ (m = 4 ∨ m = 5 ∨ m = 6 ∨ m = 7 ∨ m = 8 ∨ m = 10)) ∧
    (∀ c ∈ fateRemoved deck sel, isAce c = true ∧ isKS c = false) := by
  refine ⟨?_, ?_, ?_⟩
  · unfold FATE_CONFIG at hk
    split_ifs at hk <;> simp_all <;> omega
  · intro m
    unfold FATE_CONFIG
    split_ifs <;> simp_all
  · intro c hc
    obtain ⟨i, hi, rfl⟩ := List.mem_map.mp hc
    have hia := hsel i hi
    unfold aceIndices at hia
    have h2 := List.of_mem_filter hia
    refine ⟨h2, ?_⟩
    unfold isAce at h2
    unfold isKS
    have h3 : (deck.getD i dummyCard).rank = 0 := by simpa using h2
    simp only [List.getD, List.get?_eq_getElem?] at h3 ⊢
    simp [h3]

/-- Witness for C7 at player count 6 with the penalty-variant deck and the
first two Ace positions selected. -/
theorem fate_rule_witness :
    (52 - 4) % 6 = 0 ∧
    (∀ m, (FATE_CONFIG m).isSome ↔ (m = 4 ∨ m = 5 ∨ m = 6 ∨ m = 7 ∨ m = 8 ∨ m = 10)) ∧
    (∀ c ∈ fateRemoved generateDeckPenalty [12, 25], isAce c = true ∧ isKS c = false) :=
  fate_rule_divisibility_and_aces 6 4 (by decide) generateDeckPenalty [12, 25] (by decide)

/-! ### C9 — acceptSwap transfers unconditionally -/

/-- C9: whenever both userIDs name seated players (and the two are
distinct), `acceptSwap` succeeds and appends the accepter's entire hand to
the requester's, leaving the accepter's hand empty — with **no** further
precondition: nothing about a pending request, the turn, seat adjacency or
`gameStarted` appears among the hypotheses. -/
theorem acceptSwap_unconditional (room : Room) (fromUserID myUserID : String)
    (hne : fromUserID ≠ myUserID)
    (hreq : ∃ p ∈ room.players, p.userID = fromUserID)
    (hacc : ∃ p ∈ room.players, p.userID = myUserID) :
    ∃ r' ri ai, acceptSwap room fromUserID myUserID = some r' ∧
      ri < room.players.length ∧ ai < room.players.length ∧ ri ≠ ai ∧
      (room.players.getD ri dummyPlayer).userID = fromUserID ∧
      (room.players.getD ai dummyPlayer).userID = myUserID ∧
      (r'.players.getD ri dummyPlayer).hand
        = (room.players.getD ri dummyPlayer).hand ++ (room.players.getD ai dummyPlayer).hand ∧
      (r'.players.getD ai dummyPlayer).hand = [] := by
  have hri : jsFindIndex (fun p => p.userID == fromUserID) room.players ≠ -1 := by
    apply jsFindIndex_found
    obtain ⟨p, hp, he⟩ := hreq
    exact ⟨p, hp, by simp [he]⟩
  have hai : jsFindIndex (fun p => p.userID == myUserID) room.players ≠ -1 := by
    apply jsFindIndex_found
    obtain ⟨p, hp, he⟩ := hacc
    exact ⟨p, hp, by simp [he]⟩
  obtain ⟨ri, hriEq, hriLt, x, hx, hpx⟩ := jsFindIndex_spec _ _ hri
  obtain ⟨ai, haiEq, haiLt, y, hy, hpy⟩ := jsFindIndex_spec _ _ hai
  have hxu : x.userID = fromUserID := by simpa using hpx
  have hyu : y.userID = myUserID := by simpa using hpy
  have hgx : room.players.getD ri dummyPlayer = x := by
    simp [List.getD, hx]
  have hgy : room.players.getD ai dummyPlayer = y := by
    simp [List.getD, hy]
  have hneidx : ri ≠ ai := by
    intro h
    subst h
    rw [hx] at hy
    cases hy
    exact hne (hxu ▸ hyu ▸ rfl)
  have hlen1 : (room.players.set ri { x with hand := x.hand ++ y.hand }).length
      = room.players.length := List.length_set ..
  have key : ∃ r', acceptSwap room fromUserID myUserID = some r' ∧
      r'.players = (room.players.set ri { x with hand := x.hand ++ y.hand }).set ai
        { (room.players.set ri { x with hand := x.hand ++ y.hand }).getD ai dummyPlayer with
            hand := [] } := by
    unfold acceptSwap
    rw [hriEq, haiEq]
    rw [if_neg (by omega)]
    simp only [Int.toNat_ofNat, hgx, hgy]
    split
    · exact ⟨_, rfl, rfl⟩
    · exact ⟨_, rfl, rfl⟩
  obtain ⟨r', hr', hpl⟩ := key
  refine ⟨r', ri, ai, hr', hriLt, haiLt, hneidx, by rw [hgx]; exact hxu, by rw [hgy]; exact hyu,
    ?_, ?_⟩
  · rw [hpl, getD_set_ne _ _ _ _ _ (Ne.symm hneidx),
      getD_set_self _ _ _ _ hriLt, hgx, hgy]
  · rw [hpl, getD_set_self _ _ _ _ (by rw [hlen1]; exact haiLt)]

/-- Witness for C9: in a room where the game has not started, a round is
flagged as resolving, the turn belongs to neither player and no swap was
ever requested, `acceptSwap` still moves B's whole hand to A. -/
theorem acceptSwap_unconditional_witness :
    swapAnywayRoomFix.gameStarted = false ∧ swapAnywayRoomFix.resolving = true ∧
    swapAnywayRoomFix.turn = 2 ∧
    (∃ r' ri ai, acceptSwap swapAnywayRoomFix "A" "B" = some r' ∧
      ri < swapAnywayRoomFix.players.length ∧ ai < swapAnywayRoomFix.players.length ∧ ri ≠ ai ∧
      (swapAnywayRoomFix.players.getD ri dummyPlayer).userID = "A" ∧
      (swapAnywayRoomFix.players.getD ai dummyPlayer).userID = "B" ∧
      (r'.players.getD ri dummyPlayer).hand
        = (swapAnywayRoomFix.players.getD ri dummyPlayer).hand
            ++ (swapAnywayRoomFix.players.getD ai dummyPlayer).hand ∧
      (r'.players.getD ai dummyPlayer).hand = []) :=
  ⟨rfl, rfl, rfl,
    acceptSwap_unconditional swapAnywayRoomFix "A" "B" (by decide) (by decide) (by decide)⟩

/-! ### C6 — turn-timer fallback card -/

/-- C6 counterexample: with lead suit Hearts and hand `[5♥, K♥]`, the
timer fallback commits 5♥ — the **first** Hearts card in hand order — even
though the hand holds the strictly higher Hearts card K♥, refuting "the
highest-valued card of the lead suit". -/
theorem autoplay_not_highest_lead :
    timerRoomFix.isFirstMove = false ∧
    timerRoomFix.currentSuit = some Suit.Hearts ∧
    (⟨Suit.Hearts, 12, 12⟩ : Card) ∈ timerPlayerFix.hand ∧
    (⟨Suit.Hearts, 12, 12⟩ : Card).suit = Suit.Hearts ∧
    autoPlayCard timerRoomFix timerPlayerFix = some ⟨Suit.Hearts, 4, 4⟩ ∧
    (4 : Nat) < 12 := by decide

/-- C6 amended: on expiry the fallback is the King of Spades when
`isFirstMove`; otherwise the **first** card of the lead suit in hand order
if one is held; otherwise the **first** card of the hand (`hand[0]`) —
not the highest lead-suit card nor the lowest-valued card. -/
theorem autoplay_fallback_policy (room : Room) (p : Player) (hne : p.hand ≠ []) :
    ∃ c, autoPlayCard room p = some c ∧ c ∈ p.hand ∧
      (room.isFirstMove = true → (∃ x ∈ p.hand, isKS x = true) → isKS c = true) ∧
      (room.isFirstMove = false → ∀ s, room.currentSuit = some s →
        (p.hand.find? (fun x => x.suit == s) = some c ∨
          ((∀ x ∈ p.hand, x.suit ≠ s) ∧ p.hand.head? = some c))) ∧
      (room.isFirstMove = false → room.currentSuit = none → p.hand.head? = some c) := by
  obtain ⟨h0, hh0⟩ := headq_of_ne_nil hne
  unfold autoPlayCard
  by_cases hfm : room.isFirstMove
  · cases hks : p.hand.find? isKS with
    | some c =>
        refine ⟨c, by simp [hfm, hks], List.mem_of_find?_eq_some hks, ?_, ?_, ?_⟩
        · intro _ _; exact List.find?_some hks
        · intro hcontra; rw [hfm] at hcontra; cases hcontra
        · intro hcontra; rw [hfm] at hcontra; cases hcontra
    | none =>
        refine ⟨h0, by simp [hfm, hks, hh0], mem_of_headq hh0, ?_, ?_, ?_⟩
        · intro _ hex
          obtain ⟨c, hc⟩ := find?_of_exists _ _ hex
          rw [hks] at hc; cases hc
        · intro hcontra; rw [hfm] at hcontra; cases hcontra
        · intro hcontra; rw [hfm] at hcontra; cases hcontra
  · have hfm' : room.isFirstMove = false := Bool.of_not_eq_true hfm
    cases hcs : room.currentSuit with
    | some s =>
        cases hfind : p.hand.find? (fun x => x.suit == s) with
        | some c =>
            refine ⟨c, by simp [hfm', hcs, hfind], List.mem_of_find?_eq_some hfind, ?_, ?_, ?_⟩
            · intro hcontra; rw [hfm'] at hcontra; cases hcontra
            · intro _ s' hs'
              injection hs' with hss
              subst hss
              exact Or.inl hfind
            · intro _ hn; exact Option.noConfusion hn
        | none =>
            refine ⟨h0, by simp [hfm', hcs, hfind, hh0], mem_of_headq hh0, ?_, ?_, ?_⟩
            · intro hcontra; rw [hfm'] at hcontra; cases hcontra
            · intro _ s' hs'
              injection hs' with hss
              subst hss
              refine Or.inr ⟨?_, hh0⟩
              intro x hx
              have := List.find?_eq_none.mp hfind x hx
              simpa using this
            · intro _ hn; exact Option.noConfusion hn
    | none =>
        refine ⟨h0, by simp [hfm', hcs, hh0], mem_of_headq hh0, ?_, ?_, ?_⟩
        · intro hcontra; rw [hfm'] at hcontra; cases hcontra
        · intro _ s' hs'; exact Option.noConfusion hs'
        · intro _ _; exact hh0

/-- Witness for the amended C6 policy at the `[5♥, K♥]` fixture. -/
theorem autoplay_fallback_policy_witness :
    timerPlayerFix.hand ≠ [] ∧
    (∃ c, autoPlayCard timerRoomFix timerPlayerFix = some c ∧ c ∈ timerPlayerFix.hand ∧
      (timerRoomFix.isFirstMove = true →
        (∃ x ∈ timerPlayerFix.hand, isKS x = true) → isKS c = true) ∧
      (timerRoomFix.isFirstMove = false → ∀ s, timerRoomFix.currentSuit = some s →
        (timerPlayerFix.hand.find? (fun x => x.suit == s) = some c ∨
          ((∀ x ∈ timerPlayerFix.hand, x.suit ≠ s) ∧ timerPlayerFix.hand.head? = some c))) ∧
      (timerRoomFix.isFirstMove = false → timerRoomFix.currentSuit = none →
        timerPlayerFix.hand.head? = some c)) :=
  ⟨by decide, autoplay_fallback_policy timerRoomFix timerPlayerFix (by decide)⟩

/-! ### C3 — illegal-move rejection behaviour -/

/-- C3 counterexample: a submission while `resolving == true` is rejected
by a bare `return` — the room is unchanged but **no** user-visible reason
is emitted, refuting "the rejection carries a user-visible reason". -/
theorem resolving_rejection_silent :
    resolvingRoomFix.resolving = true ∧
    (playCard resolvingRoomFix "Bs" ⟨Suit.Hearts, 0, 0⟩).accepted = false ∧
    (playCard resolvingRoomFix "Bs" ⟨Suit.Hearts, 0, 0⟩).errorMsg = none ∧
    (playCard resolvingRoomFix "Bs" ⟨Suit.Hearts, 0, 0⟩).room = resolvingRoomFix := by
  decide

/-- C3 amended: every rejected `playCard` submission leaves the room
unchanged, and carries a user-visible reason **except** the
`resolving == true` rejection, which is silent; the outcome is a pure
function of the room state and the submission, so re-submitting the same
illegal move from the same state yields the same rejection. -/
theorem illegal_play_rejection_behavior (room : Room) (sid : String) (card : Card) (p : Player)
    (hp : room.players.get? room.turn.toNat = some p)
    (hrej : (playCard room sid card).accepted = false) :
    (playCard room sid card).room = room ∧
    (room.resolving = false → ∃ msg, (playCard room sid card).errorMsg = some msg) ∧
    (room.resolving = true → (playCard room sid card).errorMsg = none) := by
  unfold playCard at hrej ⊢
  by_cases hres : room.resolving
  · simp [hres]
  · have hres' : room.resolving = false := Bool.of_not_eq_true hres
    simp only [hres', Bool.false_eq_true, if_false] at hrej ⊢
    simp only [hp] at hrej ⊢
    by_cases h1 : p.id ≠ sid
    · simp [h1, hres']
    · simp only [if_neg h1] at hrej ⊢
      split
      · simp [hres']
      · split
        · simp [hres']
        · split
          · simp [hres']
          · exfalso
            rename_i hc1 hc2 hc3
            rw [if_neg hc1, if_neg hc2, if_neg hc3] at hrej
            simp at hrej

/-- Witness for the amended C3 at a concrete wrong-turn rejection. -/
theorem illegal_play_rejection_witness :
    dealtRoom4.players.get? dealtRoom4.turn.toNat = some (dealtRoom4.players.getD 0 dummyPlayer) ∧
    (playCard dealtRoom4 "Bs" ⟨Suit.Spades, 12, 12⟩).accepted = false ∧
    ((playCard dealtRoom4 "Bs" ⟨Suit.Spades, 12, 12⟩).room = dealtRoom4 ∧
      (dealtRoom4.resolving = false →
        ∃ msg, (playCard dealtRoom4 "Bs" ⟨Suit.Spades, 12, 12⟩).errorMsg = some msg) ∧
      (dealtRoom4.resolving = true →
        (playCard dealtRoom4 "Bs" ⟨Suit.Spades, 12, 12⟩).errorMsg = none)) :=
  ⟨by decide, by decide,
    illegal_play_rejection_behavior dealtRoom4 "Bs" ⟨Suit.Spades, 12, 12⟩
      (dealtRoom4.players.getD 0 dummyPlayer) (by decide) (by decide)⟩

/-! ### C8 — AI memory scoping across games -/

/-- C8 counterexample: inside `deal` the memory reset is the **last**
statement — after the card-distribution phase every hand is already
non-empty while the room's AI memory still holds the void-suit fact
recorded in the previous game (seat 2 void in Hearts), refuting "resets
the room's AI memory to empty before any card is dealt". -/
theorem ai_memory_reset_after_dealing :
    memVoids memVoidFix 2 = [Suit.Hearts] ∧
    (∃ q ∈ (dealPhase roomBase memVoidFix playersABCD createDeck).1.players, q.hand ≠ []) ∧
    (dealPhase roomBase memVoidFix playersABCD createDeck).2 = memVoidFix ∧
    memVoids (dealPhase roomBase memVoidFix playersABCD createDeck).2 2 = [Suit.Hearts] := by
  decide

/-- C8 amended: starting any game or rematch runs `deal`, whose final
statement resets the room's AI memory to the empty object — so although
the reset happens after the hands are filled (not before), no void-suit
fact, played-card log entry or discard log entry recorded during game N
survives into the engine's state at the start of game N+1. -/
theorem ai_memory_cleared_by_deal (room : Room) (mem : AIMemory) (sp : List Player)
    (deck : List Card) (seat : Nat) (s : Suit) :
    (deal room mem sp deck).2 = resetAIMemory ∧
    (startGameCore room mem sp deck).2 = resetAIMemory ∧
    isPlayerVoid (startGameCore room mem sp deck).2 seat s = false ∧
    (startGameCore room mem sp deck).2.cardsPlayedThisGame = [] ∧
    (startGameCore room mem sp deck).2.discardedCards = [] := by
  refine ⟨rfl, rfl, ?_, rfl, rfl⟩
  simp [isPlayerVoid, memVoids, startGameCore, deal, resetAIMemory]

/-! ### Round-robin dealing arithmetic -/

theorem mem_of_getElemq {α : Type _} {l : List α} {i : Nat} {a : α} (h : l[i]? = some a) :
    a ∈ l := by
  obtain ⟨hl, he⟩ := List.getElem?_eq_some.mp h
  exact he ▸ List.getElem_mem hl

theorem idxList_length (n j : Nat) (hn : 0 < n) (hj : j < n) :
    ∀ L, (idxList n j L).length = L / n + (if j < L % n then 1 else 0) := by
  intro L
  induction L with
  | zero => simp [idxList, Nat.zero_div, Nat.zero_mod]
  | succ L ih =>
      have hstep : (idxList n j (L + 1)).length
          = (idxList n j L).length + (if L % n = j then 1 else 0) := by
        unfold idxList
        rw [List.range_succ, List.filter_append, List.length_append]
        by_cases h : L % n = j <;> simp [h]
      rw [hstep, ih]
      have hqr : n * (L / n) + L % n = L := Nat.div_add_mod L n
      have hr : L % n < n := Nat.mod_lt _ hn
      by_cases hr1 : L % n + 1 = n
      · have hL1 : L + 1 = n * (L / n) + n := by omega
        have hdiv : (L + 1) / n = L / n + 1 := by
          rw [hL1, Nat.mul_add_div hn, Nat.div_self hn]
        have hmod : (L + 1) % n = 0 := by
          rw [hL1, Nat.mul_add_mod, Nat.mod_self]
        rw [hdiv, hmod]
        split_ifs <;> omega
      · have hL1 : L + 1 = n * (L / n) + (L % n + 1) := by omega
        have hdiv : (L + 1) / n = L / n := by
          rw [hL1, Nat.mul_add_div hn,
            Nat.div_eq_of_lt (show L % n + 1 < n by omega), Nat.add_zero]
        have hmod : (L + 1) % n = L % n + 1 := by
          rw [hL1, Nat.mul_add_mod, Nat.mod_eq_of_lt (show L % n + 1 < n by omega)]
        rw [hdiv, hmod]
        split_ifs <;> omega

theorem sum_map_add {β : Type _} (l : List β) (f g : β → Nat) :
    (l.map (fun x => f x + g x)).sum = (l.map f).sum + (l.map g).sum := by
  induction l with
  | nil => simp
  | cons x xs ih => simp [ih]; omega

theorem sum_const_range (n q : Nat) : ((List.range n).map (fun _ => q)).sum = n * q := by
  induction n with
  | zero => simp
  | succ m ih => rw [List.range_succ, List.map_append, List.sum_append, ih]; simp [Nat.succ_mul]

theorem sum_ind_range (n r : Nat) :
    ((List.range n).map (fun j => if j < r then 1 else 0)).sum = min n r := by
  induction n with
  | zero => simp
  | succ m ih =>
      rw [List.range_succ, List.map_append, List.sum_append, ih]
      by_cases h : m < r <;> simp [h] <;> omega

/-- The hand seat `j` receives has the round-robin share size. -/
theorem handOf_length (n j : Nat) (deck : List Card) (hn : 0 < n) (hj : j < n) :
    (handOf n deck j).length = deck.length / n + (if j < deck.length % n then 1 else 0) := by
  unfold handOf
  rw [List.length_map, idxList_length n j hn hj]

/-- The round-robin deal hands out every card of the deck. -/
theorem totalHands_dealCards (sp : List Player) (deck : List Card) (hn : 0 < sp.length) :
    ((dealCards sp deck).map (fun p => p.hand.length)).sum = deck.length := by
  unfold dealCards
  rw [List.map_map]
  have hcong : (List.range sp.length).map
        ((fun p => p.hand.length) ∘ fun j => { sp.getD j dummyPlayer with hand := handOf sp.length deck j })
      = (List.range sp.length).map
        (fun j => deck.length / sp.length + (if j < deck.length % sp.length then 1 else 0)) := by
    apply List.map_congr_left
    intro j hj
    simp only [Function.comp]
    exact handOf_length sp.length j deck hn (List.mem_range.mp hj)
  rw [hcong, sum_map_add, sum_const_range, sum_ind_range]
  have := Nat.div_add_mod deck.length sp.length
  have := Nat.mod_lt deck.length hn
  omega

/-! ### Conservation helpers -/

/-- The winner-scan's index component is either the accumulator's or taken
from some table entry. -/
theorem winScan_snd (lead : Option Suit) :
    ∀ (l : List TableEntry) (acc : Int × Int),
      (winScan lead acc l).2 = acc.2 ∨
        ∃ t ∈ l, (t.playerIdx : Int) = (winScan lead acc l).2 := by
  intro l
  induction l with
  | nil => intro acc; left; rfl
  | cons t ts ih =>
      intro acc
      simp only [winScan]
      by_cases hc : some t.card.suit = lead ∧ (t.card.val : Int) > acc.1
      · rw [if_pos hc]
        rcases ih ((t.card.val : Int), (t.playerIdx : Int)) with h | h
        · right; exact ⟨t, List.mem_cons_self .., by rw [h]⟩
        · right
          obtain ⟨u, hu, he⟩ := h
          exact ⟨u, List.mem_cons_of_mem _ hu, he⟩
      · rw [if_neg hc]
        rcases ih acc with h | h
        · left; exact h
        · right
          obtain ⟨u, hu, he⟩ := h
          exact ⟨u, List.mem_cons_of_mem _ hu, he⟩

/-- `processCard` conserves the total card count: the played card moves
from the hand to the table and nothing else moves. -/
theorem totalCards_processCard (room : Room) (idx : Nat) (card : Card) :
    totalCards (processCard room idx card).1 = totalCards room := by
  unfold processCard
  cases hg : room.players.get? idx with
  | none => rfl
  | some p =>
      simp only []
      by_cases hci : jsFindIndex (fun c => c.suit == card.suit && c.rank == card.rank) p.hand = -1
      · rw [if_pos hci]
      · rw [if_neg hci]
        obtain ⟨ci, hciEq, hciLt, x, hx, hpx⟩ := jsFindIndex_spec _ _ hci
        have hg2 : room.players[idx]? = some p := by rw [← List.get?_eq_getElem?]; exact hg
        have hplt : idx < room.players.length := (List.getElem?_eq_some.mp hg2).1
        have hpe : room.players[idx] = p := (List.getElem?_eq_some.mp hg2).2
        rw [hciEq]
        simp only [Int.toNat_ofNat]
        have hhl : (p.hand.eraseIdx ci).length = p.hand.length - 1 := by
          rw [List.length_eraseIdx]
          simp [hciLt]
        have h0 : 0 < p.hand.length := lt_of_le_of_lt (Nat.zero_le _) hciLt
        have hsum := sum_map_set (fun q => q.hand.length) room.players idx
          { p with hand := p.hand.eraseIdx ci } hplt
        rw [List.getD_eq_getElem _ _ hplt, hpe] at hsum
        simp only [] at hsum
        rw [apply_ite Prod.fst, apply_ite totalCards]
        simp only [advancePlayer, totalCards, List.length_append, List.length_cons,
          List.length_nil]
        rw [ite_self]
        omega

/-- `resolveRound` conserves the total card count whenever the game is
still running afterwards: on pangkah the table cards move into the
winner's hand and the table is cleared; on a clean round they move to the
discard pile and the table is cleared.  (The game-over branch leaves the
final trick on the table *and* copies it, which is why the conclusion is
guarded by `gameStarted`.) -/
theorem totalCards_resolveRound (room : Room) (b : Bool)
    (hg : (resolveRound room b).gameStarted = true) :
    totalCards (resolveRound room b) = totalCards room := by
  unfold resolveRound at hg ⊢
  cases htab : room.table with
  | nil => rfl
  | cons t0 ts =>
      rw [htab] at hg
      simp only [] at hg ⊢
      cases hw : room.players.get? (resolvedWinnerIdx (t0 :: ts) room.currentSuit) with
      | none => rw [hw] at hg
      | some winner =>
          rw [hw] at hg
          have hw2 : room.players[resolvedWinnerIdx (t0 :: ts) room.currentSuit]? = some winner := by
            rw [← List.get?_eq_getElem?]; exact hw
          have hwlt : resolvedWinnerIdx (t0 :: ts) room.currentSuit < room.players.length :=
            (List.getElem?_eq_some.mp hw2).1
          have hwe : room.players[resolvedWinnerIdx (t0 :: ts) room.currentSuit] = winner :=
            (List.getElem?_eq_some.mp hw2).2
          cases b with
          | false =>
              simp only [Bool.false_eq_true, if_false] at hg ⊢
              split at hg
              · simp at hg
              · rename_i hsurv
                rw [if_neg hsurv]
                simp only [totalCards, List.length_append, List.length_map, List.length_nil,
                  htab, List.length_cons]
                omega
          | true =>
              simp only [if_true] at hg ⊢
              have hsum := sum_map_set (fun q => q.hand.length) room.players
                (resolvedWinnerIdx (t0 :: ts) room.currentSuit)
                { winner with hand := winner.hand ++ (t0 :: ts).map (·.card) } hwlt
              rw [List.getD_eq_getElem _ _ hwlt, hwe] at hsum
              simp only [List.length_append, List.length_map] at hsum
              split at hg
              · simp at hg
              · rename_i hsurv
                rw [if_neg hsurv]
                simp only [totalCards, List.length_nil, htab, List.length_cons]
                simp only [List.length_cons] at hsum
                omega

/-- `acceptSwap` conserves the total card count (for two distinct
players): the accepter's hand is appended to the requester's. -/
theorem totalCards_acceptSwap (room : Room) (fromID myID : String) (r' : Room)
    (hne : fromID ≠ myID) (hsw : acceptSwap room fromID myID = some r') :
    totalCards r' = totalCards room := by
  unfold acceptSwap at hsw
  simp only [] at hsw
  split at hsw
  · cases hsw
  · rename_i hguard
    have hri : jsFindIndex (fun p => p.userID == fromID) room.players ≠ -1 := by
      intro h; exact hguard (Or.inl h)
    have hai : jsFindIndex (fun p => p.userID == myID) room.players ≠ -1 := by
      intro h; exact hguard (Or.inr h)
    obtain ⟨ri, hriEq, hriLt, x, hx, hpx⟩ := jsFindIndex_spec _ _ hri
    obtain ⟨ai, haiEq, haiLt, y, hy, hpy⟩ := jsFindIndex_spec _ _ hai
    have hxu : x.userID = fromID := by simpa using hpx
    have hyu : y.userID = myID := by simpa using hpy
    have hneidx : ri ≠ ai := by
      intro h
      subst h
      rw [hx] at hy
      cases hy
      exact hne (hxu ▸ hyu ▸ rfl)
    rw [hriEq, haiEq] at hsw
    simp only [Int.toNat_ofNat] at hsw
    have hgx : room.players.getD ri dummyPlayer = x := by simp [List.getD, hx]
    have hgy : room.players.getD ai dummyPlayer = y := by simp [List.getD, hy]
    rw [hgx, hgy] at hsw
    have hlen1 : (room.players.set ri { x with hand := x.hand ++ y.hand }).length
        = room.players.length := List.length_set ..
    have hsum1 := sum_map_set (fun q => q.hand.length) room.players ri
      { x with hand := x.hand ++ y.hand } hriLt
    rw [List.getD_eq_getElem _ _ hriLt] at hsum1
    have hxe : room.players[ri] = x := (List.getElem?_eq_some.mp hx).2
    rw [hxe] at hsum1
    simp only [List.length_append] at hsum1
    have hg1 : (room.players.set ri { x with hand := x.hand ++ y.hand }).getD ai dummyPlayer
        = y := by rw [getD_set_ne _ _ _ _ _ hneidx, hgy]
    rw [hg1] at hsw
    have hye : (room.players.set ri { x with hand := x.hand ++ y.hand })[ai] = y := by
      have h2 : (room.players.set ri { x with hand := x.hand ++ y.hand }).getD ai dummyPlayer
          = y := hg1
      rw [List.getD_eq_getElem _ _ (by rw [hlen1]; exact haiLt)] at h2
      exact h2
    have hsum2 := sum_map_set (fun q => q.hand.length)
      (room.players.set ri { x with hand := x.hand ++ y.hand }) ai
      { y with hand := [] } (by rw [hlen1]; exact haiLt)
    rw [List.getD_eq_getElem _ _ (by rw [hlen1]; exact haiLt), hye] at hsum2
    try simp only [List.length_nil] at hsum2
    try simp only [] at hsum2
    split at hsw
    all_goals cases hsw
    all_goals simp only [totalCards]
    all_goals omega

/-- A fresh (table-empty, discard-empty, no Fate removals) room dealt from
a permutation of the 52-card deck holds exactly 52 cards in hands. -/
theorem totalCards_deal (room : Room) (mem : AIMemory) (sp : List Player) (deck : List Card)
    (hn : 0 < sp.length) (ht : room.table = []) (hd : room.discarded = [])
    (hf : room.fateAces = []) (hperm : deck.Perm createDeck) :
    totalCards (dealPhase room mem sp deck).1 = 52 := by
  unfold totalCards dealPhase
  simp only [ht, hd, hf, List.length_nil]
  rw [totalHands_dealCards sp deck hn, hperm.length_eq]
  decide

/-! ### Winner-scan characterisation (for C1) -/

theorem getq_set_self {α : Type _} (l : List α) (i : Nat) (a : α) (h : i < l.length) :
    (l.set i a).get? i = some a := by
  rw [List.get?_eq_getElem?]
  simp [List.getElem?_set_self, h]

/-- Full invariant of the `resolveRound` winner scan: either no lead-suit
entry beats the accumulator (which is then returned unchanged), or the
result is the value/seat of a lead-suit entry that dominates every
lead-suit entry of the list. -/
theorem winScan_max (s : Suit) :
    ∀ (l : List TableEntry) (h0 w0 : Int),
      (winScan (some s) (h0, w0) l = (h0, w0) ∧
        ∀ t ∈ l, t.card.suit = s → (t.card.val : Int) ≤ h0) ∨
      (∃ e ∈ l, e.card.suit = s ∧
        (winScan (some s) (h0, w0) l).1 = (e.card.val : Int) ∧
        (winScan (some s) (h0, w0) l).2 = (e.playerIdx : Int) ∧
        h0 < (e.card.val : Int) ∧
        ∀ t ∈ l, t.card.suit = s → (t.card.val : Int) ≤ (e.card.val : Int)) := by
  intro l
  induction l with
  | nil =>
      intro h0 w0
      left
      exact ⟨rfl, by simp⟩
  | cons t ts ih =>
      intro h0 w0
      simp only [winScan]
      by_cases hc : some t.card.suit = some s ∧ (t.card.val : Int) > h0
      · rw [if_pos hc]
        have hts : t.card.suit = s := Option.some.inj hc.1
        rcases ih (t.card.val : Int) (t.playerIdx : Int) with ⟨heq, hbound⟩ | h
        · right
          refine ⟨t, List.mem_cons_self .., hts, ?_, ?_, hc.2, ?_⟩
          · rw [heq]
          · rw [heq]
          · intro u hu hus
            rcases List.mem_cons.mp hu with rfl | hu
            · exact le_refl _
            · exact hbound u hu hus
        · obtain ⟨e, he, hsuit, h1, h2, hlt, hbound⟩ := h
          right
          refine ⟨e, List.mem_cons_of_mem _ he, hsuit, h1, h2, lt_trans hc.2 hlt, ?_⟩
          intro u hu hus
          rcases List.mem_cons.mp hu with rfl | hu
          · exact le_of_lt hlt
          · exact hbound u hu hus
      · rw [if_neg hc]
        rcases ih h0 w0 with ⟨heq, hbound⟩ | h
        · left
          refine ⟨heq, ?_⟩
          intro u hu hus
          rcases List.mem_cons.mp hu with rfl | hu
          · by_contra hgt
            exact hc ⟨by rw [hus], by omega⟩
          · exact hbound u hu hus
        · obtain ⟨e, he, hsuit, h1, h2, hlt, hbound⟩ := h
          right
          refine ⟨e, List.mem_cons_of_mem _ he, hsuit, h1, h2, hlt, ?_⟩
          intro u hu hus
          rcases List.mem_cons.mp hu with rfl | hu
          · have : ¬ (u.card.val : Int) > h0 := fun hgt => hc ⟨by rw [hus], hgt⟩
            omega
          · exact hbound u hu hus

/-! ### C1 — round resolution: winner selection and card movement -/

/-- C1: in an active-game trick state (non-empty table whose first entry
set the lead suit, as `processCard` guarantees), resolution selects the
seat holding the highest-valued lead-suit card on the table; if the trick
contained a pangkah (some table card off the lead suit — exactly the flag
`processCard` passes along), all table cards are appended to that winner's
hand; on a clean trick they are all appended to the discard pile and the
table is cleared (while the game continues). -/
theorem resolveRound_winner_and_absorb
    (room : Room) (isPangkah : Bool) (s : Suit) (t0 : TableEntry) (ts : List TableEntry)
    (htab : room.table = t0 :: ts)
    (hlead : room.currentSuit = some s)
    (hfirst : t0.card.suit = s)
    (hidx : ∀ t ∈ room.table, t.playerIdx < room.players.length)
    (hpk : isPangkah = room.table.any (fun t => !(t.card.suit == s))) :
    (∃ e ∈ room.table, e.playerIdx = resolvedWinnerIdx room.table room.currentSuit ∧
        e.card.suit = s ∧
        ∀ t ∈ room.table, t.card.suit = s → t.card.val ≤ e.card.val) ∧
    (isPangkah = true →
      ∃ winner, room.players.get? (resolvedWinnerIdx room.table room.currentSuit) = some winner ∧
        (resolveRound room isPangkah).players.get?
            (resolvedWinnerIdx room.table room.currentSuit)
          = some { winner with hand := winner.hand ++ room.table.map (·.card) }) ∧
    (isPangkah = false →
      (resolveRound room isPangkah).players = room.players ∧
      (resolveRound room isPangkah).discarded = room.discarded ++ room.table.map (·.card) ∧
      ((resolveRound room isPangkah).gameStarted = true →
        (resolveRound room isPangkah).table = [])) := by
  rcases winScan_max s (t0 :: ts) (-1) (-1) with ⟨_, hbound⟩ | h
  · exfalso
    have hb := hbound t0 (List.mem_cons_self ..) hfirst
    have := Int.natCast_nonneg t0.card.val
    omega
  obtain ⟨e, he, hsuit, h1, h2, hlt, hbound⟩ := h
  have hW : resolvedWinnerIdx (t0 :: ts) (some s) = e.playerIdx := by
    unfold resolvedWinnerIdx
    simp only []
    rw [h2, if_neg (by omega)]
    simp
  have helt : e.playerIdx < room.players.length := by
    apply hidx
    rw [htab]
    exact he
  have hwget : room.players.get? e.playerIdx = some room.players[e.playerIdx] := by
    rw [List.get?_eq_getElem?]
    exact List.getElem?_eq_getElem helt
  refine ⟨?_, ?_, ?_⟩
  · rw [htab, hlead, hW]
    refine ⟨e, he, rfl, hsuit, ?_⟩
    intro u hu hus
    have := hbound u hu hus
    exact_mod_cast this
  · intro hp
    subst hp
    rw [htab, hlead, hW]
    refine ⟨room.players[e.playerIdx], hwget, ?_⟩
    unfold resolveRound
    rw [htab, hlead]
    simp only []
    rw [hW, hwget]
    simp only [if_true]
    split
    · exact getq_set_self _ _ _ helt
    · exact getq_set_self _ _ _ helt
  · intro hp
    subst hp
    unfold resolveRound
    rw [htab, hlead]
    simp only []
    rw [hW, hwget]
    simp only [Bool.false_eq_true, if_false]
    split
    · exact ⟨rfl, rfl, fun hg => by simp at hg⟩
    · exact ⟨rfl, rfl, fun _ => rfl⟩

/-- Witness for C1 at the spec §8 example: lead Hearts, table
`[(P1,5♥),(P2,2♣ pangkah),(P3,K♥)]` — P3 wins and absorbs all three
cards. -/
theorem resolveRound_winner_witness :
    specTrickRoom.table
        = [⟨⟨Suit.Hearts, 4, 4⟩, 1, "P1"⟩, ⟨⟨Suit.Clubs, 1, 1⟩, 2, "P2"⟩,
           ⟨⟨Suit.Hearts, 12, 12⟩, 3, "P3"⟩] ∧
    specTrickRoom.currentSuit = some Suit.Hearts ∧
    ((∃ e ∈ specTrickRoom.table,
        e.playerIdx = resolvedWinnerIdx specTrickRoom.table specTrickRoom.currentSuit ∧
        e.card.suit = Suit.Hearts ∧
        ∀ t ∈ specTrickRoom.table, t.card.suit = Suit.Hearts → t.card.val ≤ e.card.val) ∧
      (true = true →
        ∃ winner, specTrickRoom.players.get?
            (resolvedWinnerIdx specTrickRoom.table specTrickRoom.currentSuit) = some winner ∧
          (resolveRound specTrickRoom true).players.get?
              (resolvedWinnerIdx specTrickRoom.table specTrickRoom.currentSuit)
            = some { winner with
                hand := winner.hand ++ specTrickRoom.table.map (·.card) }) ∧
      (true = false →
        (resolveRound specTrickRoom true).players = specTrickRoom.players ∧
        (resolveRound specTrickRoom true).discarded
          = specTrickRoom.discarded ++ specTrickRoom.table.map (·.card) ∧
        ((resolveRound specTrickRoom true).gameStarted = true →
          (resolveRound specTrickRoom true).table = []))) :=
  ⟨rfl, rfl,
    resolveRound_winner_and_absorb specTrickRoom true Suit.Hearts
      ⟨⟨Suit.Hearts, 4, 4⟩, 1, "P1"⟩
      [⟨⟨Suit.Clubs, 1, 1⟩, 2, "P2"⟩, ⟨⟨Suit.Hearts, 12, 12⟩, 3, "P3"⟩]
      rfl rfl rfl (by decide) (by decide)⟩

/-! ### C2 — card conservation -/

/-- C2 counterexample: from a reachable active 4-player post-deal state
with `Σhands + |table| + |discard| + |fateAces| = 52`, the player-leaving
handler splices seat A (and their 13 cards) out of the room while the
game keeps running — the total drops to 39, breaking the conservation
invariant the claim asserts "across every operation ... (… player
leaving)". -/
theorem conservation_broken_by_leaveRoom :
    totalCards dealtRoom4 = 52 ∧ dealtRoom4.gameStarted = true ∧
    ∃ r', leaveRoom dealtRoom4 "A" = some r' ∧ r'.gameStarted = true ∧
      totalCards r' = 39 ∧ totalCards r' ≠ 52 := by
  decide

/-- C2 amended: the conservation sum `Σhands + |table| + |discard| +
|fateAces|` is preserved by a play commit, by a round resolution that
leaves the game running, and by a hand swap between two distinct players,
and a deal over a fresh room (empty table/discard/fate piles) establishes
the sum at exactly 52 — but a player leaving mid-game removes their whole
hand from the sum (see the counterexample). -/
theorem cards_conserved_midgame
    (r1 : Room) (idx : Nat) (card : Card)
    (r2 : Room) (b : Bool)
    (r3 : Room) (fromID myID : String) (r3' : Room)
    (r4 : Room) (mem : AIMemory) (sp : List Player) (deck : List Card)
    (hids : fromID ≠ myID) (hsw : acceptSwap r3 fromID myID = some r3')
    (hn : 0 < sp.length) (hperm : deck.Perm createDeck)
    (ht : r4.table = []) (hd : r4.discarded = []) (hf : r4.fateAces = []) :
    totalCards (processCard r1 idx card).1 = totalCards r1 ∧
    ((resolveRound r2 b).gameStarted = true →
      totalCards (resolveRound r2 b) = totalCards r2) ∧
    totalCards r3' = totalCards r3 ∧
    totalCards (dealPhase r4 mem sp deck).1 = 52 :=
  ⟨totalCards_processCard r1 idx card,
   fun hg => totalCards_resolveRound r2 b hg,
   totalCards_acceptSwap r3 fromID myID r3' hids hsw,
   totalCards_deal r4 mem sp deck hn ht hd hf hperm⟩

/-- Witness for the amended C2 at concrete states: a King-of-Spades play
commit from the dealt 4-player room, the spec's pangkah trick resolution,
the A-absorbs-B swap, and the identity-shuffle deal itself. -/
theorem cards_conserved_midgame_witness :
    ("A" : String) ≠ "B" ∧ acceptSwap dealtRoom4 "A" "B" = some swapStep1 ∧
    0 < playersABCD.length ∧ roomBase.table = [] ∧ roomBase.discarded = [] ∧
    roomBase.fateAces = [] ∧
    (totalCards (processCard dealtRoom4 0 ⟨Suit.Spades, 12, 12⟩).1 = totalCards dealtRoom4 ∧
      ((resolveRound specTrickRoom true).gameStarted = true →
        totalCards (resolveRound specTrickRoom true) = totalCards specTrickRoom) ∧
      totalCards swapStep1 = totalCards dealtRoom4 ∧
      totalCards (dealPhase roomBase resetAIMemory playersABCD createDeck).1 = 52) :=
  ⟨by decide, by decide, by decide, rfl, rfl, rfl,
    cards_conserved_midgame dealtRoom4 0 ⟨Suit.Spades, 12, 12⟩ specTrickRoom true
      dealtRoom4 "A" "B" swapStep1 roomBase resetAIMemory playersABCD createDeck
      (by decide) (by decide) (by decide) (List.Perm.refl createDeck) rfl rfl rfl⟩

/-! ### C5 — deal: hand sizes and King-of-Spades starter -/

/-- C5 counterexample: deal with 5 players (this variant has no Fate
filtering and admits rooms of 2-10 seats) splits the 52-card deck into
hands of sizes 11,11,10,10,10 — not "hands of exactly equal size". -/
theorem deal_unequal_hands_five_players :
    dealtRoom5.players.map (fun p => p.hand.length) = [11, 11, 10, 10, 10] ∧
    ¬ (dealtRoom5.players.map (fun p => p.hand.length)).Pairwise (· = ·) := by
  decide

/-- C5 amended: deal splits the deck round-robin into hands whose sizes
differ by at most one (`⌊52/n⌋` or `⌊52/n⌋+1`; exactly equal only when the
player count divides 52), sets `isFirstMove`, and sets the turn to a seat
whose hand contains the King of Spades — a seat that always exists because
the full 52-card deck is dealt out (the code would set `turn = -1`, not 0,
if no hand held it, but that case is unreachable). -/
theorem deal_roundrobin_properties (room : Room) (mem : AIMemory) (sp : List Player)
    (deck : List Card) (hn : 0 < sp.length) (hperm : deck.Perm createDeck) :
    (dealPhase room mem sp deck).1.isFirstMove = true ∧
    (∀ j, j < sp.length →
      ((dealPhase room mem sp deck).1.players.getD j dummyPlayer).hand.length
        = 52 / sp.length + (if j < 52 % sp.length then 1 else 0)) ∧
    (∃ i : Nat, (dealPhase room mem sp deck).1.turn = (i : Int) ∧ i < sp.length ∧
      ((dealPhase room mem sp deck).1.players.getD i dummyPlayer).hand.any isKS = true) := by
  have hlen : deck.length = 52 := by
    rw [hperm.length_eq]; decide
  refine ⟨rfl, ?_, ?_⟩
  · intro j hj
    show ((dealCards sp deck).getD j dummyPlayer).hand.length = _
    unfold dealCards
    rw [getD_map_range _ _ _ _ hj]
    simp only []
    rw [handOf_length sp.length j deck hn hj, hlen]
  · -- the King of Spades is in the deck, hence in the hand of seat (i % n)
    have hks : (⟨Suit.Spades, 12, 12⟩ : Card) ∈ deck := by
      rw [hperm.mem_iff]; decide
    obtain ⟨i, hi, he⟩ := List.mem_iff_getElem.mp hks
    have hj : i % sp.length < sp.length := Nat.mod_lt _ hn
    have hmem : (⟨Suit.Spades, 12, 12⟩ : Card) ∈ handOf sp.length deck (i % sp.length) := by
      unfold handOf
      apply List.mem_map.mpr
      refine ⟨i, ?_, ?_⟩
      · unfold idxList
        apply List.mem_filter.mpr
        exact ⟨List.mem_range.mpr hi, by simp⟩
      · rw [List.getD_eq_getElem deck dummyCard hi, he]
    have hany : (handOf sp.length deck (i % sp.length)).any isKS = true :=
      List.any_eq_true.mpr ⟨_, hmem, by decide⟩
    -- hence findIndex over the dealt players succeeds
    set players' := dealCards sp deck with hpl
    have hplj : players'[i % sp.length]? =
        some { sp.getD (i % sp.length) dummyPlayer with
                 hand := handOf sp.length deck (i % sp.length) } := by
      rw [hpl]
      unfold dealCards
      rw [List.getElem?_map, List.getElem?_range hj]
      rfl
    have hfound : jsFindIndex (fun p => p.hand.any isKS) players' ≠ -1 := by
      apply jsFindIndex_found
      exact ⟨_, mem_of_getElemq hplj, hany⟩
    obtain ⟨i0, hEq, hLt, x, hx, hpx⟩ := jsFindIndex_spec _ _ hfound
    have hlenp : players'.length = sp.length := by
      rw [hpl]; unfold dealCards; simp
    refine ⟨i0, ?_, by rw [← hlenp]; exact hLt, ?_⟩
    · show jsFindIndex (fun p => p.hand.any isKS) (dealCards sp deck) = (i0 : Int)
      rw [← hpl]; exact hEq
    · show ((dealCards sp deck).getD i0 dummyPlayer).hand.any isKS = true
      rw [← hpl]
      have : players'.getD i0 dummyPlayer = x := by simp [List.getD, hx]
      rw [this]; exact hpx

/-- Witness for the amended C5 at the concrete 5-player deal. -/
theorem deal_roundrobin_witness :
    0 < players5.length ∧
    ((dealPhase roomBase5 resetAIMemory players5 createDeck).1.isFirstMove = true ∧
      (∀ j, j < players5.length →
        ((dealPhase roomBase5 resetAIMemory players5 createDeck).1.players.getD j
            dummyPlayer).hand.length
          = 52 / players5.length + (if j < 52 % players5.length then 1 else 0)) ∧
      (∃ i : Nat,
        (dealPhase roomBase5 resetAIMemory players5 createDeck).1.turn = (i : Int) ∧
        i < players5.length ∧
        ((dealPhase roomBase5 resetAIMemory players5 createDeck).1.players.getD i
            dummyPlayer).hand.any isKS = true)) :=
  ⟨by decide,
    deal_roundrobin_properties roomBase5 resetAIMemory players5 createDeck (by decide)
      (List.Perm.refl createDeck)⟩

/-! ### C4 — finishOrder discipline -/

theorem sweepFinish_nodup (players : List Player) :
    ∀ fo : List String, fo.Nodup → (sweepFinish players fo).Nodup := by
  induction players with
  | nil => intro fo h; exact h
  | cons p ps ih =>
      intro fo h
      unfold sweepFinish
      simp only [List.foldl_cons]
      show (sweepFinish ps _).Nodup
      apply ih
      split
      · rename_i hcond
        rw [List.nodup_append]
        refine ⟨h, List.nodup_singleton _, ?_⟩
        intro a ha hmem
        rcases List.mem_singleton.mp hmem with rfl
        simp at hcond
        exact hcond.2 ha
      · exact h

/-- C4 counterexample: starting from the reachable 4-player post-deal
state, four (unchecked) `acceptSwap` commands produce
`finishOrder = ["B","C","A","D","B"]`: the final unguarded loser push
appends "B" a second time, so the list does not contain each identity at
most once. -/
theorem finishOrder_duplicate_loser :
    acceptSwap dealtRoom4 "A" "B" = some swapStep1 ∧
    acceptSwap swapStep1 "B" "C" = some swapStep2 ∧
    acceptSwap swapStep2 "B" "A" = some swapStep3 ∧
    acceptSwap swapStep3 "B" "D" = some swapStep4 ∧
    swapStep4.finishOrder = ["B", "C", "A", "D", "B"] ∧
    ¬ swapStep4.finishOrder.Nodup := by
  decide

/-- C4 amended: every append to `finishOrder` other than the final-loser
push is guarded — it adds an identity not yet listed whose hand just
transitioned from non-empty to empty (play commit), or is empty at the
sweep/swap (both resolution and swap preserve no-duplicates while the
game continues) — but the game-over loser push is unguarded, so the loser
can appear twice when they had emptied and then re-acquired a hand; the
game-over transition fires exactly when at most one seat retains cards
(i.e. the emptied-seat count reaches playerCount - 1). -/
theorem finishOrder_append_discipline
    (r1 : Room) (idx : Nat) (card : Card)
    (r2 : Room) (b : Bool)
    (r3 : Room) (fromID myID : String) (r3' : Room)
    (hsw : acceptSwap r3 fromID myID = some r3')
    (hgs : r2.gameStarted = true) (htab : r2.table ≠ [])
    (hwin : (r2.players.get? (resolvedWinnerIdx r2.table r2.currentSuit)).isSome) :
    ((processCard r1 idx card).1.finishOrder = r1.finishOrder ∨
      ∃ p, r1.players.get? idx = some p ∧ p.hand ≠ [] ∧ p.userID ∉ r1.finishOrder ∧
        (processCard r1 idx card).1.finishOrder = r1.finishOrder ++ [p.userID] ∧
        ∃ p', (processCard r1 idx card).1.players.get? idx = some p' ∧ p'.hand = []) ∧
    ((resolveRound r2 b).gameStarted = true → r2.finishOrder.Nodup →
      (resolveRound r2 b).finishOrder.Nodup) ∧
    ((resolveRound r2 b).gameStarted = false ↔ (survivorsAfter r2 b).length ≤ 1) ∧
    (r3'.gameStarted = true → r3.finishOrder.Nodup → r3'.finishOrder.Nodup) := by
  refine ⟨?_, ?_, ?_, ?_⟩
  · -- play commit
    unfold processCard
    cases hg : r1.players.get? idx with
    | none => left; rfl
    | some p =>
        simp only []
        by_cases hci : jsFindIndex (fun c => c.suit == card.suit && c.rank == card.rank) p.hand
            = -1
        · rw [if_pos hci]; left; rfl
        · rw [if_neg hci]
          obtain ⟨ci, hciEq, hciLt, x, hx, hpx⟩ := jsFindIndex_spec _ _ hci
          have hg2 : r1.players[idx]? = some p := by rw [← List.get?_eq_getElem?]; exact hg
          have hplt : idx < r1.players.length := (List.getElem?_eq_some.mp hg2).1
          rw [hciEq]
          simp only [Int.toNat_ofNat]
          have hhand : p.hand ≠ [] := by
            intro hnil
            rw [hnil] at hciLt
            simp at hciLt
          by_cases hpush : ((p.hand.eraseIdx ci).isEmpty
              && !r1.finishOrder.contains p.userID) = true
          · right
            refine ⟨p, rfl, hhand, ?_, ?_, ?_⟩
            · intro hmem
              have h2 := hpush
              simp at h2
              exact h2.2 hmem
            · rw [if_pos hpush]
              rw [apply_ite Prod.fst, apply_ite Room.finishOrder]
              simp only [advancePlayer, ite_self]
            · refine ⟨{ p with hand := p.hand.eraseIdx ci }, ?_, ?_⟩
              · rw [apply_ite Prod.fst, apply_ite Room.players]
                simp only [advancePlayer, ite_self]
                exact getq_set_self _ _ _ hplt
              · have hie := ((Bool.and_eq_true _ _).mp hpush).1
                simpa [List.isEmpty_iff] using hie
          · left
            rw [if_neg hpush]
            rw [apply_ite Prod.fst, apply_ite Room.finishOrder]
            simp only [advancePlayer, ite_self]
  · -- resolution keeps Nodup while the game continues
    intro hg hnd
    unfold resolveRound at hg ⊢
    cases htab2 : r2.table with
    | nil => exact hnd
    | cons t0 ts =>
        rw [htab2] at hg
        try simp only [] at hg
        try simp only []
        cases hw : r2.players.get? (resolvedWinnerIdx (t0 :: ts) r2.currentSuit) with
        | none => rw [hw] at hg; exact hnd
        | some winner =>
            rw [hw] at hg
            cases b with
            | false =>
                simp only [Bool.false_eq_true, if_false] at hg ⊢
                split at hg
                · simp at hg
                · rename_i hsurv
                  rw [if_neg hsurv]
                  exact sweepFinish_nodup _ _ hnd
            | true =>
                simp only [if_true] at hg ⊢
                split at hg
                · simp at hg
                · rename_i hsurv
                  rw [if_neg hsurv]
                  exact sweepFinish_nodup _ _ hnd
  · -- game over fires iff at most one survivor remains
    unfold resolveRound survivorsAfter
    cases htab2 : r2.table with
    | nil => exact absurd htab2 htab
    | cons t0 ts =>
        rw [htab2] at hwin
        try simp only []
        cases hw : r2.players.get? (resolvedWinnerIdx (t0 :: ts) r2.currentSuit) with
        | none => rw [hw] at hwin; simp at hwin
        | some winner =>
            try simp only []
            cases b with
            | false =>
                try simp only [Bool.false_eq_true, if_false]
                split
                · rename_i hsurv
                  try simp
                  try simpa using hsurv
                · rename_i hsurv
                  try simp [hgs]
                  try simpa using hsurv
            | true =>
                try simp only [if_true]
                split
                · rename_i hsurv
                  try simp
                  try simpa using hsurv
                · rename_i hsurv
                  try simp [hgs]
                  try simpa using hsurv
  · -- swap keeps Nodup while the game continues
    intro hg hnd
    unfold acceptSwap at hsw
    try simp only [] at hsw
    split at hsw
    · cases hsw
    · split at hsw
      · cases hsw
        simp at hg
      · cases hsw
        simp only []
        split
        · exact hnd
        · rename_i hcontains
          rw [List.nodup_append]
          refine ⟨hnd, List.nodup_singleton _, ?_⟩
          intro a ha hmem
          rcases List.mem_singleton.mp hmem with rfl
          exact hcontains (by simpa using ha)

/-- Witness for the amended C4 at the first swap from the dealt room and
the spec trick resolution. -/
theorem finishOrder_append_discipline_witness :
    acceptSwap dealtRoom4 "A" "B" = some swapStep1 ∧
    specTrickRoom.gameStarted = true ∧ specTrickRoom.table ≠ [] ∧
    (specTrickRoom.players.get?
        (resolvedWinnerIdx specTrickRoom.table specTrickRoom.currentSuit)).isSome = true ∧
    (((processCard dealtRoom4 0 ⟨Suit.Spades, 12, 12⟩).1.finishOrder = dealtRoom4.finishOrder ∨
        ∃ p, dealtRoom4.players.get? 0 = some p ∧ p.hand ≠ [] ∧
          p.userID ∉ dealtRoom4.finishOrder ∧
          (processCard dealtRoom4 0 ⟨Suit.Spades, 12, 12⟩).1.finishOrder
            = dealtRoom4.finishOrder ++ [p.userID] ∧
          ∃ p', (processCard dealtRoom4 0 ⟨Suit.Spades, 12, 12⟩).1.players.get? 0 = some p' ∧
            p'.hand = []) ∧
      ((resolveRound specTrickRoom true).gameStarted = true → specTrickRoom.finishOrder.Nodup →
        (resolveRound specTrickRoom true).finishOrder.Nodup) ∧
      ((resolveRound specTrickRoom true).gameStarted = false ↔
        (survivorsAfter specTrickRoom true).length ≤ 1) ∧
      (swapStep1.gameStarted = true → dealtRoom4.finishOrder.Nodup →
        swapStep1.finishOrder.Nodup)) :=
  ⟨by decide, rfl, by decide, by decide,
    finishOrder_append_discipline dealtRoom4 0 ⟨Suit.Spades, 12, 12⟩ specTrickRoom true
      dealtRoom4 "A" "B" swapStep1 (by decide) rfl (by decide) (by decide)⟩

/-! ### Bot-engine membership lemmas (for C10) -/

theorem mem_insertByVal (a c : Card) : ∀ l : List Card, a ∈ insertByVal c l ↔ a = c ∨ a ∈ l := by
  intro l
  induction l with
  | nil => simp [insertByVal]
  | cons x xs ih =>
      unfold insertByVal
      split
      · simp
      · simp only [List.mem_cons, ih]
        tauto

theorem mem_sortByVal (a : Card) : ∀ l : List Card, a ∈ sortByVal l ↔ a ∈ l := by
  intro l
  induction l with
  | nil => simp [sortByVal]
  | cons x xs ih =>
      unfold sortByVal
      rw [mem_insertByVal, ih]
      simp

theorem sortByVal_ne_nil {l : List Card} (h : l ≠ []) : sortByVal l ≠ [] := by
  cases l with
  | nil => exact absurd rfl h
  | cons x xs =>
      unfold sortByVal
      cases hs : sortByVal xs with
      | nil => simp [insertByVal]
      | cons y ys =>
          unfold insertByVal
          split <;> simp

theorem mem_insertByValDesc (a c : Card) :
    ∀ l : List Card, a ∈ insertByValDesc c l ↔ a = c ∨ a ∈ l := by
  intro l
  induction l with
  | nil => simp [insertByValDesc]
  | cons x xs ih =>
      unfold insertByValDesc
      split
      · simp
      · simp only [List.mem_cons, ih]
        tauto

theorem mem_sortByValDesc (a : Card) : ∀ l : List Card, a ∈ sortByValDesc l ↔ a ∈ l := by
  intro l
  induction l with
  | nil => simp [sortByValDesc]
  | cons x xs ih =>
      unfold sortByValDesc
      rw [mem_insertByValDesc, ih]
      simp

theorem sortByValDesc_ne_nil {l : List Card} (h : l ≠ []) : sortByValDesc l ≠ [] := by
  cases l with
  | nil => exact absurd rfl h
  | cons x xs =>
      unfold sortByValDesc
      cases hs : sortByValDesc xs with
      | nil => simp [insertByValDesc]
      | cons y ys =>
          unfold insertByValDesc
          split <;> simp

theorem bySuitOf_subset {hand : List Card} {s : Suit} {x : Card} (h : x ∈ bySuitOf hand s) :
    x ∈ hand ∧ x.suit = s := by
  unfold bySuitOf at h
  rw [mem_sortByVal] at h
  have h2 := List.mem_filter.mp h
  exact ⟨h2.1, by simpa using h2.2⟩

theorem bySuitOf_ne_nil {hand : List Card} {s : Suit} {c : Card} (hc : c ∈ hand)
    (hs : c.suit = s) : bySuitOf hand s ≠ [] := by
  unfold bySuitOf
  apply sortByVal_ne_nil
  intro hnil
  have : c ∈ hand.filter (fun x => x.suit == s) :=
    List.mem_filter.mpr ⟨hc, by simp [hs]⟩
  rw [hnil] at this
  simp at this

theorem bySuitOf_empty_no_suit {hand : List Card} {s : Suit}
    (h : bySuitOf hand s = []) : ∀ x ∈ hand, x.suit ≠ s := by
  intro x hx hs
  exact bySuitOf_ne_nil hx hs h

theorem headD_mem {l : List Card} (d : Card) (h : l ≠ []) : l.headD d ∈ l := by
  cases l with
  | nil => exact absurd rfl h
  | cons x xs => simp [List.headD]

theorem foldl_preserve {α β : Type _} (P : β → Prop) (f : β → α → β)
    (hstep : ∀ b a, P b → P (f b a)) : ∀ (l : List α) (b : β), P b → P (l.foldl f b) := by
  intro l
  induction l with
  | nil => intro b hb; exact hb
  | cons x xs ih =>
      intro b hb
      exact ih (f b x) (hstep b x hb)

/-- The singleton pick returns a card of one of the entries' lists. -/
theorem pickSingleton_mem {entries : List (Suit × List Card)} {c : Card}
    (h : pickSingleton entries = some c) : ∃ e ∈ entries, c ∈ e.2 := by
  unfold pickSingleton at h
  split at h
  · cases h
  · rename_i e es heq
    have hmem : (es.foldl
        (fun a b => if (a.2.headD dummyCard).val > (b.2.headD dummyCard).val then a else b) e)
        ∈ e :: es := by
      apply foldl_choice_mem
      intro a b
      split
      · exact Or.inl rfl
      · exact Or.inr rfl
    rw [← heq] at hmem
    have hfilter := List.mem_of_mem_filter hmem
    have hpred := List.of_mem_filter hmem
    injection h with h2
    refine ⟨_, hfilter, ?_⟩
    rw [← h2]
    apply headD_mem
    intro hnil
    rw [hnil] at hpred
    simp at hpred

/-- The most-common pick returns one of the entries, with a non-empty list. -/
theorem pickMostCommon_spec {entries : List (Suit × List Card)} {e : Suit × List Card}
    (h : pickMostCommon entries = some e) : e ∈ entries ∧ e.2 ≠ [] := by
  unfold pickMostCommon at h
  split at h
  · cases h
  · rename_i e0 es heq
    have hmem : (es.foldl (fun a b => if b.2.length > a.2.length then b else a) e0)
        ∈ e0 :: es := by
      apply foldl_choice_mem
      intro a b
      split
      · exact Or.inr rfl
      · exact Or.inl rfl
    rw [← heq] at hmem
    injection h with h2
    rw [← h2]
    refine ⟨List.mem_of_mem_filter hmem, ?_⟩
    have hpred := List.of_mem_filter hmem
    intro hnil
    rw [hnil] at hpred
    simp at hpred

/-- The late-game safest-suit scan only returns suits the bot holds. -/
theorem lateSafest_spec {mem : AIMemory} {hand : List Card} {s : Suit}
    (h : lateSafest mem hand = some s) : bySuitOf hand s ≠ [] := by
  unfold lateSafest at h
  have hinv := foldl_preserve
    (fun acc : Option Suit × Int => ∀ u, acc.1 = some u → bySuitOf hand u ≠ [])
    (fun acc s' =>
      let cards := bySuitOf hand s'
      if cards.isEmpty then acc
      else
        let remaining : Int :=
          13 - (cards.length : Int) - ((mem.discardedCards.filter (fun c => c.suit == s')).length : Int)
        if remaining > acc.2 then (some s', remaining) else acc)
    ?_ suitsList ((none : Option Suit), (-1 : Int)) ?_
  · exact hinv s h
  · intro b a hb
    simp only []
    split
    · exact hb
    · split
      · intro u hu
        injection hu with hu
        subst hu
        rename_i hne _
        simpa using hne
      · exact hb
  · intro u hu
    cases hu

/-- Every card the fall-through tail picks comes from `suitCards`. -/
theorem botFollowRest_mem (phase : Phase) (pa : List Nat)
    (canBeat cantBeat suitCards : List Card)
    (hcan : ∀ c ∈ canBeat, c ∈ suitCards) (hcant : ∀ c ∈ cantBeat, c ∈ suitCards)
    (hne : suitCards ≠ []) :
    ∃ c, botFollowRest phase pa canBeat cantBeat suitCards = some c ∧ c ∈ suitCards := by
  unfold botFollowRest
  split
  · rename_i hcond
    have h2 : canBeat ≠ [] := by
      have := ((Bool.and_eq_true _ _).mp hcond).2
      simpa using this
    obtain ⟨c, hc⟩ := headq_of_ne_nil h2
    exact ⟨c, hc, hcan c (mem_of_headq hc)⟩
  · split
    · rename_i hcond
      have h2 : canBeat ≠ [] := by
        have := ((Bool.and_eq_true _ _).mp hcond).2
        simpa using this
      obtain ⟨c, hc⟩ := getLastq_of_ne_nil h2
      exact ⟨c, hc, hcan c (mem_of_getLastq hc)⟩
    · split
      · rename_i hcond
        have h2 : cantBeat ≠ [] := by simpa using hcond
        obtain ⟨c, hc⟩ := getLastq_of_ne_nil h2
        exact ⟨c, hc, hcant c (mem_of_getLastq hc)⟩
      · cases hh : canBeat.head? with
        | some c => exact ⟨c, rfl, hcan c (mem_of_headq hh)⟩
        | none =>
            obtain ⟨c, hc⟩ := headq_of_ne_nil hne
            exact ⟨c, hc, mem_of_headq hc⟩

/-- Every card `botFollowSuit` picks comes from `suitCards`. -/
theorem botFollowSuit_mem (phase : Phase) (pa va : List Nat) (th : Int)
    (suitCards : List Card) (hne : suitCards ≠ []) :
    ∃ c, botFollowSuit phase pa va th suitCards = some c ∧ c ∈ suitCards := by
  unfold botFollowSuit
  simp only []
  have hcan : ∀ c ∈ suitCards.filter (fun c => (c.val : Int) > th), c ∈ suitCards :=
    fun c hc => List.mem_of_mem_filter hc
  have hcant : ∀ c ∈ suitCards.filter (fun c => (c.val : Int) ≤ th), c ∈ suitCards :=
    fun c hc => List.mem_of_mem_filter hc
  split
  · split
    · rename_i hcond
      have h2 : (suitCards.filter (fun c => (c.val : Int) ≤ th)) ≠ [] := by
        simpa using hcond
      obtain ⟨c, hc⟩ := getLastq_of_ne_nil h2
      exact ⟨c, hc, hcant c (mem_of_getLastq hc)⟩
    · split
      · rename_i hcond
        have h2 : (suitCards.filter (fun c => (c.val : Int) > th)) ≠ [] := by
          simpa using hcond
        obtain ⟨c, hc⟩ := headq_of_ne_nil h2
        exact ⟨c, hc, hcan c (mem_of_headq hc)⟩
      · exact botFollowRest_mem phase pa _ _ suitCards hcan hcant hne
  · exact botFollowRest_mem phase pa _ _ suitCards hcan hcant hne

/-- Every card the forced-pangkah dump picks comes from the hand. -/
theorem botPangkahDump_mem (mem : AIMemory) (hand : List Card) (phase : Phase)
    (hne : hand ≠ []) :
    ∃ c, botPangkahDump mem hand phase = some c ∧ c ∈ hand := by
  unfold botPangkahDump
  simp only []
  have hsub : ∀ e ∈ suitsList.map (fun s => (s, bySuitOf hand s)), ∀ x ∈ e.2, x ∈ hand := by
    intro e he x hx
    obtain ⟨s, hs, rfl⟩ := List.mem_map.mp he
    exact (bySuitOf_subset hx).1
  have hfb : ∃ c, (sortByValDesc hand).head? = some c ∧ c ∈ hand := by
    obtain ⟨c, hc⟩ := headq_of_ne_nil (sortByValDesc_ne_nil hne)
    exact ⟨c, hc, (mem_sortByValDesc _ _).mp (mem_of_headq hc)⟩
  cases hps : pickSingleton (suitsList.map fun s => (s, bySuitOf hand s)) with
  | some c =>
      obtain ⟨e, he, hce⟩ := pickSingleton_mem hps
      exact ⟨c, rfl, hsub e he c hce⟩
  | none =>
      cases phase with
      | early => rw [if_neg (by decide)]; exact hfb
      | mid => rw [if_neg (by decide)]; exact hfb
      | late =>
          rw [if_pos (by decide)]
          cases hmc : pickMostCommon (suitsList.map fun s => (s, bySuitOf hand s)) with
          | some e =>
              obtain ⟨he, hne2⟩ := pickMostCommon_spec hmc
              obtain ⟨c, hc⟩ := getLastq_of_ne_nil hne2
              exact ⟨c, hc, hsub e he c (mem_of_getLastq hc)⟩
          | none => exact hfb

/-- Every card `botLead` picks comes from the hand. -/
theorem botLead_spec (mem : AIMemory) (hand : List Card) (pa : List Nat) (phase : Phase)
    (hne : hand ≠ []) :
    ∃ c, botLead mem hand pa phase = some c ∧ c ∈ hand := by
  unfold botLead
  simp only []
  have hsub : ∀ e ∈ suitsList.map (fun s => (s, bySuitOf hand s)), ∀ x ∈ e.2, x ∈ hand := by
    intro e he x hx
    obtain ⟨s, hs, rfl⟩ := List.mem_map.mp he
    exact (bySuitOf_subset hx).1
  have hfb : ∃ c, (sortByVal hand).head? = some c ∧ c ∈ hand := by
    obtain ⟨c, hc⟩ := headq_of_ne_nil (sortByVal_ne_nil hne)
    exact ⟨c, hc, (mem_sortByVal _ _).mp (mem_of_headq hc)⟩
  cases phase with
  | early =>
      simp only []
      cases hps : pickSingleton (suitsList.map fun s => (s, bySuitOf hand s)) with
      | some c =>
          obtain ⟨e, he, hce⟩ := pickSingleton_mem hps
          exact ⟨c, rfl, hsub e he c hce⟩
      | none =>
          cases hmc : pickMostCommon (suitsList.map fun s => (s, bySuitOf hand s)) with
          | some e =>
              obtain ⟨he, hne2⟩ := pickMostCommon_spec hmc
              obtain ⟨c, hc⟩ := getLastq_of_ne_nil hne2
              exact ⟨c, hc, hsub e he c (mem_of_getLastq hc)⟩
          | none => exact hfb
  | mid =>
      simp only []
      cases hf : suitsList.find? (fun s =>
          !(bySuitOf hand s).isEmpty
            && !((pa.filter (fun i => isPlayerVoid mem i s)).isEmpty)
            && ((((bySuitOf hand s).getLastD dummyCard).val : Int)
                  < getHighestInPlayBySuit mem hand s)) with
      | some s =>
          have hpred := List.find?_some hf
          have h2 : bySuitOf hand s ≠ [] := by
            have := ((Bool.and_eq_true _ _).mp ((Bool.and_eq_true _ _).mp hpred).1).1
            simpa using this
          obtain ⟨c, hc⟩ := headq_of_ne_nil h2
          exact ⟨c, hc, (bySuitOf_subset (mem_of_headq hc)).1⟩
      | none =>
          cases hmc : pickMostCommon (suitsList.map fun s => (s, bySuitOf hand s)) with
          | some e =>
              obtain ⟨he, hne2⟩ := pickMostCommon_spec hmc
              obtain ⟨c, hc⟩ := headq_of_ne_nil hne2
              exact ⟨c, hc, hsub e he c (mem_of_headq hc)⟩
          | none => exact hfb
  | late =>
      simp only []
      cases hls : lateSafest mem hand with
      | some s =>
          obtain ⟨c, hc⟩ := headq_of_ne_nil (lateSafest_spec hls)
          exact ⟨c, hc, (bySuitOf_subset (mem_of_headq hc)).1⟩
      | none => exact hfb

/-- Every card `botFollow` picks comes from the hand, and follows the lead
suit whenever the hand holds it. -/
theorem botFollow_spec (mem : AIMemory) (room : Room) (hand : List Card) (pa : List Nat)
    (phase : Phase) (hne : hand ≠ []) :
    ∃ c, botFollow mem room hand pa phase = some c ∧ c ∈ hand ∧
      (∀ s, room.currentSuit = some s → hand.any (fun x => x.suit == s) = true →
        c.suit = s) := by
  unfold botFollow
  cases hcs : room.currentSuit with
  | none =>
      simp only [List.isEmpty_nil, Bool.not_true, Bool.false_eq_true, if_false]
      try simp only []
      obtain ⟨c, hc, hm⟩ := botPangkahDump_mem mem hand phase hne
      exact ⟨c, hc, hm, fun s hs => by cases hs⟩
  | some s =>
      try simp only []
      by_cases hempty : bySuitOf hand s = []
      · rw [hempty]
        simp only [List.isEmpty_nil, Bool.not_true, Bool.false_eq_true, if_false]
        obtain ⟨c, hc, hm⟩ := botPangkahDump_mem mem hand phase hne
        refine ⟨c, hc, hm, ?_⟩
        intro s' hs' hany
        injection hs' with hs2
        subst hs2
        obtain ⟨x, hx, hxs⟩ := List.any_eq_true.mp hany
        exact absurd (by simpa using hxs) (bySuitOf_empty_no_suit hempty x hx)
      · rw [if_pos (by simpa using hempty)]
        obtain ⟨c, hc, hm⟩ := botFollowSuit_mem phase pa
          (pa.filter (fun i => isPlayerVoid mem i s)) (getTableHigh room)
          (bySuitOf hand s) hempty
        refine ⟨c, hc, (bySuitOf_subset hm).1, ?_⟩
        intro s' hs' _
        injection hs' with hs2
        subst hs2
        exact (bySuitOf_subset hm).2

/-- Splitting a `legalPlay` obligation into membership, the first-move rule
and the follow-suit rule. -/
theorem legalPlay_holds (room : Room) (hand : List Card) (c : Card)
    (hmem : c ∈ hand)
    (h1 : room.isFirstMove = true → isKS c = true)
    (h2 : room.table ≠ [] → (some c.suit == room.currentSuit) = true ∨
        hand.any (fun x => some x.suit == room.currentSuit) = false) :
    legalPlay room hand c = true := by
  unfold legalPlay
  refine (Bool.and_eq_true _ _).mpr ⟨(Bool.and_eq_true _ _).mpr ⟨?_, ?_⟩, ?_⟩
  · simpa using hmem
  · cases hf : room.isFirstMove
    · rfl
    · simp [h1 hf]
  · cases ht : room.table with
    | nil => simp
    | cons t ts =>
        rcases h2 (by rw [ht]; simp) with h | h
        · simp [h]
        · simp [h]

/-- No card's suit `beq`-matches an unset lead suit. -/
theorem any_suit_none_false (hand : List Card) :
    hand.any (fun x => some x.suit == (none : Option Suit)) = false := by
  cases h : hand.any (fun x => some x.suit == (none : Option Suit))
  · rfl
  · obtain ⟨x, hx, hpx⟩ := List.any_eq_true.mp h
    simp at hpx

/-- Lifting a void-in-suit fact through the `Option` wrapping of the lead
suit. -/
theorem any_suit_some_false {hand : List Card} {s : Suit}
    (h : hand.any (fun x => x.suit == s) = false) :
    hand.any (fun x => some x.suit == some s) = false := by
  cases h2 : hand.any (fun x => some x.suit == some s)
  · rfl
  · obtain ⟨x, hx, hpx⟩ := List.any_eq_true.mp h2
    have hxs : (x.suit == s) = true := by simpa using hpx
    have h3 : hand.any (fun x => x.suit == s) = true := List.any_eq_true.mpr ⟨x, hx, hxs⟩
    rw [h] at h3
    exact (Bool.false_ne_true h3).elim

/-- C10 counterexample: `resolveRound`'s game-over branch leaves the final
trick, the lead suit and the resolving flag set, and the rematch start
never clears them; on the rematch's first move both `botDecide` and the
timer fallback `autoPlayCard` pick the King of Spades, which fails
`legalPlay`'s must-follow-suit check against the stale Hearts lead — yet
`processCard` commits it onto the stale table unchecked. -/
theorem bot_autoplay_illegal_on_stale_rematch :
    rematchRoom.isFirstMove = true ∧
    rematchRoom.table.length = 4 ∧
    rematchRoom.currentSuit = some Suit.Hearts ∧
    rematchRoom.resolving = true ∧
    botDecide resetAIMemory rematchRoom 0 = some ⟨Suit.Spades, 12, 12⟩ ∧
    autoPlayCard rematchRoom (rematchRoom.players.getD 0 dummyPlayer)
      = some ⟨Suit.Spades, 12, 12⟩ ∧
    legalPlay rematchRoom (rematchRoom.players.getD 0 dummyPlayer).hand
      ⟨Suit.Spades, 12, 12⟩ = false ∧
    (processCard rematchRoom 0 ⟨Suit.Spades, 12, 12⟩).1.table.length = 5 := by
  decide

/-- **C10** (amended): in every game state where the acting seat's hand is
non-empty, holds the King of Spades whenever `isFirstMove` is set, and the
table is empty on that first move, both the bot decision function
`botDecide` and the turn-timer fallback `autoPlayCard` select a card of
that hand passing `legalPlay` — the membership, first-move and
must-follow-suit checks that the commit path `processCard` itself never
performs.  The table-empty proviso is necessary: a rematch after a normal
game end starts its first move with the previous game's final trick still
on the table, and there both callers pick the King of Spades even though
it fails must-follow-suit (see the counterexample). -/
theorem bot_and_autoplay_legal (mem : AIMemory) (room : Room) (botIdx : Nat) (bot : Player)
    (hb : room.players.get? botIdx = some bot) (hne : bot.hand ≠ [])
    (hks : room.isFirstMove = true → ∃ c ∈ bot.hand, isKS c = true)
    (hfme : room.isFirstMove = true → room.table = []) :
    (∃ c, botDecide mem room botIdx = some c ∧ legalPlay room bot.hand c = true) ∧
    (∃ c, autoPlayCard room bot = some c ∧ legalPlay room bot.hand c = true) := by
  constructor
  · unfold botDecide
    rw [hb]
    simp only []
    by_cases hfmv : room.isFirstMove = true
    · rw [if_pos hfmv]
      obtain ⟨c, hc⟩ := find?_of_exists isKS bot.hand (hks hfmv)
      exact ⟨c, hc, legalPlay_holds room bot.hand c (List.mem_of_find?_eq_some hc)
        (fun _ => List.find?_some hc) (fun h => absurd (hfme hfmv) h)⟩
    · rw [if_neg hfmv]
      try simp only []
      by_cases htpe : room.table = []
      · rw [if_pos (by rw [htpe]; rfl)]
        obtain ⟨c, hc, hm⟩ := botLead_spec mem bot.hand (getPlayersAfterBot room botIdx)
          (getGamePhase room) hne
        exact ⟨c, hc, legalPlay_holds room bot.hand c hm (fun h => absurd h hfmv)
          (fun h => absurd htpe h)⟩
      · have hneg : ¬(room.table.isEmpty = true) := by
          intro h
          cases hte : room.table with
          | nil => exact htpe hte
          | cons t ts => rw [hte] at h; simp at h
        rw [if_neg hneg]
        obtain ⟨c, hc, hm, hfol⟩ := botFollow_spec mem room bot.hand
          (getPlayersAfterBot room botIdx) (getGamePhase room) hne
        refine ⟨c, hc, legalPlay_holds room bot.hand c hm (fun h => absurd h hfmv) ?_⟩
        intro _
        cases hcs : room.currentSuit with
        | none => exact Or.inr (any_suit_none_false bot.hand)
        | some s =>
            by_cases hany : bot.hand.any (fun x => x.suit == s) = true
            · have hcsuit := hfol s hcs hany
              left
              rw [hcsuit]
              simp
            · have hanyf : bot.hand.any (fun x => x.suit == s) = false := by
                cases h : bot.hand.any (fun x => x.suit == s)
                · rfl
                · exact absurd h hany
              exact Or.inr (any_suit_some_false hanyf)
  · unfold autoPlayCard
    simp only []
    by_cases hfmv : room.isFirstMove = true
    · rw [if_pos hfmv]
      obtain ⟨c, hc⟩ := find?_of_exists isKS bot.hand (hks hfmv)
      rw [hc]
      exact ⟨c, rfl, legalPlay_holds room bot.hand c (List.mem_of_find?_eq_some hc)
        (fun _ => List.find?_some hc) (fun h => absurd (hfme hfmv) h)⟩
    · rw [if_neg hfmv]
      cases hcs : room.currentSuit with
      | none =>
          obtain ⟨c, hc⟩ := headq_of_ne_nil hne
          refine ⟨c, ?_, legalPlay_holds room bot.hand c (mem_of_headq hc)
            (fun h => absurd h hfmv)
            (fun _ => Or.inr (by rw [hcs]; exact any_suit_none_false bot.hand))⟩
          exact hc
      | some s =>
          by_cases hany : bot.hand.any (fun x => x.suit == s) = true
          · obtain ⟨x, hx, hxs⟩ := List.any_eq_true.mp hany
            have hex : ∃ y ∈ bot.hand, (fun c => c.suit == s) y = true := ⟨x, hx, hxs⟩
            obtain ⟨c, hc⟩ := find?_of_exists (fun c => c.suit == s) bot.hand hex
            have hcs2 : c.suit = s := by simpa using List.find?_some hc
            refine ⟨c, ?_, legalPlay_holds room bot.hand c (List.mem_of_find?_eq_some hc)
              (fun h => absurd h hfmv)
              (fun _ => Or.inl (by rw [hcs, hcs2]; simp))⟩
            simp only []
            rw [hc]
          · have hanyf : bot.hand.any (fun x => x.suit == s) = false := by
              cases h : bot.hand.any (fun x => x.suit == s)
              · rfl
              · exact absurd h hany
            have hfindnone : bot.hand.find? (fun c => c.suit == s) = none := by
              cases h : bot.hand.find? (fun c => c.suit == s) with
              | none => rfl
              | some x =>
                  have h3 := List.any_eq_true.mpr
                    ⟨x, List.mem_of_find?_eq_some h, List.find?_some h⟩
                  exact absurd h3 hany
            obtain ⟨c, hc⟩ := headq_of_ne_nil hne
            refine ⟨c, ?_, legalPlay_holds room bot.hand c (mem_of_headq hc)
              (fun h => absurd h hfmv)
              (fun _ => Or.inr (by rw [hcs]; exact any_suit_some_false hanyf))⟩
            simp only []
            rw [hfindnone]
            exact hc

/-- Witness for C10 at the reachable identity-shuffle 4-player deal: seat 0
holds the King of Spades and it is the first move. -/
theorem bot_and_autoplay_legal_witness :
    (∃ c, botDecide resetAIMemory dealtRoom4 0 = some c ∧
        legalPlay dealtRoom4 (dealtRoom4.players.getD 0 dummyPlayer).hand c = true) ∧
    (∃ c, autoPlayCard dealtRoom4 (dealtRoom4.players.getD 0 dummyPlayer) = some c ∧
        legalPlay dealtRoom4 (dealtRoom4.players.getD 0 dummyPlayer).hand c = true) :=
  bot_and_autoplay_legal resetAIMemory dealtRoom4 0 (dealtRoom4.players.getD 0 dummyPlayer)
    (by decide) (by decide) (by decide) (by decide)


end Pangkah
